import Mathlib

/-!
# Verification of the NBT editor core

Shallow embedding of the repository's core:

* `src/unnamed/part_000` — the `TagType` / `NBTTag` data model;
* `src/utils/nbtParser.ts` — binary decoder (`NBTParser`) and encoder (`NBTWriter`);
* `src/unnamed/part_002` — tree utilities (`cloneTag`, `flattenTree`, `deleteNodesByPaths`);
* `src/components/PlayerPreview.tsx` — history management (`pushHistory`, `handleUndo`, `handleRedo`);
* `src/components/NBTNode.tsx` — `handleAddChild`.

Embedding conventions:

* A JS byte buffer (`ArrayBuffer` viewed through a `DataView`) is a `List Nat`
  whose entries are the bytes; reading at the parser's running `offset` is
  rendered as consuming the suffix of the buffer, since the source only ever
  reads at the current offset and advances.
* A JS string is represented by its UTF-8 byte sequence (`Bytes`); on those
  sequences `TextEncoder.encode` and `TextDecoder.decode` are the identity,
  so they are not reified.
* Integral JS `number`s and `bigint`s are `Int`.  `x & 0xFF` on an integral
  number is `x % 256` (Lean's `%` on `Int` is Euclidean, remainder in
  `[0, 256)`, which matches the JS `ToInt32`-then-mask result for every
  integral `x`); JS `BigInt` `>> 32n` is floor division, which for the
  positive divisor `2^32` coincides with Lean's `/` on `Int`.
* `Float`/`Double` payloads are carried as their 32 and 64 bit big-endian
  IEEE-754 bit patterns (`Nat`); `DataView.setFloat32` followed by reading
  the four bytes emits exactly the bytes of the pattern, and `getFloat32`
  reads them back, so at the byte level the payload is its pattern.
* The TS enum `TagType` is a numeric enum and `getUint8(..) as TagType` is a
  no-op cast, so tag kinds are plain `Nat`s here (End=0 … LongArray=12).
* Fallible code (DataView `RangeError`s, typed-array construction errors,
  `throw`) is rendered in `Except String`.
* The decoder's recursion in the source terminates because every recursive
  call either consumes at least one byte of the finite buffer or is a
  zero-byte `End` list element bounded by a 32-bit count; here the recursion
  is made structural with a fuel parameter that is provably large enough.
-/

abbrev Bytes := List Nat

/-- Signed interpretation of one byte, as done by `DataView.getInt8` /
an `Int8Array` view. -/
def sbyte (b : Nat) : Int := if b ≥ 128 then (b : Int) - 256 else (b : Int)

mutual
/-- The payload of an `NBTTag` (`value: any` in `src/unnamed/part_000`),
split by the shapes the parser actually stores: `null` (End), `undefined`
(unknown kind byte), integral `number`, `bigint`, float bit patterns,
string, arrays of `number`s (ByteArray/IntArray), arrays of `bigint`s
(LongArray), the `{itemType, list}` object of a List, and the child array
of a Compound. -/
inductive NBTValue : Type where
  | vNull : NBTValue
  | vUndef : NBTValue
  | vNum (i : Int) : NBTValue
  | vBig (i : Int) : NBTValue
  | vF32 (bits : Nat) : NBTValue
  | vF64 (bits : Nat) : NBTValue
  | vStr (s : Bytes) : NBTValue
  | vNums (xs : List Int) : NBTValue
  | vBigs (xs : List Int) : NBTValue
  | vListV (itemType : Nat) (list : List NBTTag) : NBTValue
  | vCompound (children : List NBTTag) : NBTValue

/-- `interface NBTTag { type: TagType; name: string | null; value: any }`. -/
inductive NBTTag : Type where
  | mk (type : Nat) (name : Option Bytes) (value : NBTValue) : NBTTag
end

def NBTTag.type : NBTTag → Nat
  | .mk t _ _ => t

def NBTTag.name : NBTTag → Option Bytes
  | .mk _ n _ => n

def NBTTag.value : NBTTag → NBTValue
  | .mk _ _ v => v

namespace NBTWriter

/-- `writeByte(b)`: `this.buffer.push(b & 0xFF)`. -/
def writeByte (b : Int) : Bytes := [(b % 256).toNat]

/-- `writeShort(s)`: pushes `(s >> 8) & 0xFF, s & 0xFF`. -/
def writeShort (s : Int) : Bytes :=
  [((s % 65536).toNat) / 256, ((s % 65536).toNat) % 256]

/-- `writeInt(i)`: pushes the four big-endian bytes of `i` mod `2^32`. -/
def writeInt (i : Int) : Bytes :=
  [((i % 4294967296).toNat) / 16777216,
   ((i % 4294967296).toNat) / 65536 % 256,
   ((i % 4294967296).toNat) / 256 % 256,
   ((i % 4294967296).toNat) % 256]

/-- `writeLong(l)`: `high = Number(l >> 32n)` (floor shift), then
`low = Number(l & 0xFFFFFFFFn)`; both written with `writeInt`. -/
def writeLong (l : Int) : Bytes :=
  writeInt (l / 4294967296) ++ writeInt (l % 4294967296)

/-- `writeFloat(f)`: the four big-endian bytes of the IEEE-754 single
bit pattern. -/
def writeFloat (bits : Nat) : Bytes :=
  [bits / 16777216 % 256, bits / 65536 % 256, bits / 256 % 256, bits % 256]

/-- `writeDouble(d)`: the eight big-endian bytes of the IEEE-754 double
bit pattern. -/
def writeDouble (bits : Nat) : Bytes :=
  [bits / 72057594037927936 % 256, bits / 281474976710656 % 256,
   bits / 1099511627776 % 256, bits / 4294967296 % 256,
   bits / 16777216 % 256, bits / 65536 % 256, bits / 256 % 256, bits % 256]

/-- `writeString(s)`: length as a short, then the UTF-8 bytes, each pushed
through `writeByte` (hence masked to a byte). -/
def writeString (s : Bytes) : Bytes :=
  writeShort (s.length : Int) ++ s.map (fun b => b % 256)

/-- ByteArray payload loop: `for(const b of tag.value) this.writeByte(b)`. -/
def writeByteSeq : List Int → Bytes
  | [] => []
  | x :: xs => writeByte x ++ writeByteSeq xs

/-- IntArray payload loop: `for(const i of tag.value) this.writeInt(i)`. -/
def writeIntSeq : List Int → Bytes
  | [] => []
  | x :: xs => writeInt x ++ writeIntSeq xs

/-- LongArray payload loop: `for(const l of tag.value) this.writeLong(BigInt(l))`. -/
def writeLongSeq : List Int → Bytes
  | [] => []
  | x :: xs => writeLong x ++ writeLongSeq xs

mutual
/-- `writeTag(tag, isRoot, skipHeader)`.  The header writes the kind byte and
— when `isRoot || tag.name !== null` — the name (`tag.name || ''`, so a null
or empty name both write the empty string). -/
def writeTag : NBTTag → Bool → Bool → Bytes
  | .mk ty nm v, isRoot, skipHeader =>
    (if skipHeader then [] else
      writeByte (ty : Int) ++
        (if isRoot || nm.isSome then writeString (nm.getD []) else [])) ++
    writeValue ty v

/-- The `switch (tag.type)` payload cases of `writeTag`.  Kinds outside 1–12
(End and unknown) have no case and emit nothing; a payload whose shape does
not match its kind is outside the codec's domain (the source would push
`NaN`-garbage) and also emits nothing here. -/
def writeValue : Nat → NBTValue → Bytes
  | 1, .vNum i => writeByte i
  | 2, .vNum i => writeShort i
  | 3, .vNum i => writeInt i
  | 4, .vBig i => writeLong i
  | 5, .vF32 bits => writeFloat bits
  | 6, .vF64 bits => writeDouble bits
  | 7, .vNums xs => writeInt (xs.length : Int) ++ writeByteSeq xs
  | 8, .vStr s => writeString s
  | 9, .vListV it l => writeByte (it : Int) ++ writeInt (l.length : Int) ++ writeItems l
  | 10, .vCompound cs => writeChildren cs ++ writeByte 0
  | 11, .vNums xs => writeInt (xs.length : Int) ++ writeIntSeq xs
  | 12, .vBigs xs => writeInt (xs.length : Int) ++ writeLongSeq xs
  | _, _ => []

/-- List payload loop: `for(const item of tag.value.list) this.writeTag(item, false, true)`. -/
def writeItems : List NBTTag → Bytes
  | [] => []
  | t :: ts => writeTag t false true ++ writeItems ts

/-- Compound payload loop: `for(const child of tag.value) this.writeTag(child)`. -/
def writeChildren : List NBTTag → Bytes
  | [] => []
  | t :: ts => writeTag t false false ++ writeChildren ts
end

/-- `NBTWriter.write(root, compress)` with `compress = false`:
`writer.writeTag(root, true)` and the raw bytes returned. -/
def write (root : NBTTag) : Bytes := writeTag root true false

end NBTWriter

namespace NBTParser

/-- One byte at the current offset (`view.getUint8`); reading past the end of
the buffer throws a `RangeError`. -/
def getU8 : Bytes → Except String (Nat × Bytes)
  | [] => .error "RangeError"
  | b :: rest => .ok (b, rest)

/-- `view.getInt8`. -/
def getI8 : Bytes → Except String (Int × Bytes)
  | [] => .error "RangeError"
  | b :: rest => .ok (sbyte b, rest)

/-- `view.getUint16` (big-endian). -/
def getU16 : Bytes → Except String (Nat × Bytes)
  | b0 :: b1 :: rest => .ok (b0 * 256 + b1, rest)
  | _ => .error "RangeError"

/-- The unsigned 32-bit big-endian read underlying `getInt32`/`getFloat32`. -/
def getU32 : Bytes → Except String (Nat × Bytes)
  | b0 :: b1 :: b2 :: b3 :: rest =>
    .ok (((b0 * 256 + b1) * 256 + b2) * 256 + b3, rest)
  | _ => .error "RangeError"

/-- The unsigned 64-bit big-endian read underlying `getFloat64`. -/
def getU64 (buf : Bytes) : Except String (Nat × Bytes) := do
  let (hi, b1) ← getU32 buf
  let (lo, b2) ← getU32 b1
  .ok (hi * 4294967296 + lo, b2)

/-- `view.getInt32` (big-endian, signed). -/
def getI32 (buf : Bytes) : Except String (Int × Bytes) := do
  let (u, rest) ← getU32 buf
  .ok (if u ≥ 2147483648 then (u : Int) - 4294967296 else (u : Int), rest)

/-- `view.getInt16` (big-endian, signed). -/
def getI16 (buf : Bytes) : Except String (Int × Bytes) := do
  let (u, rest) ← getU16 buf
  .ok (if u ≥ 32768 then (u : Int) - 65536 else (u : Int), rest)

/-- `parseLong`: `(BigInt(getInt32(o)) << 32n) | (BigInt(getInt32(o+4)) & 0xFFFFFFFFn)`.
The shifted high half has zero low bits, so the bitwise-or is the sum
`high * 2^32 + (low mod 2^32)`. -/
def parseLong (buf : Bytes) : Except String (Int × Bytes) := do
  let (high, b1) ← getI32 buf
  let (low, b2) ← getI32 b1
  .ok (high * 4294967296 + low % 4294967296, b2)

/-- `readString`: 2-byte unsigned length, then that many bytes
(`new Uint8Array(buffer, offset, len)` throws when fewer remain);
`TextDecoder.decode` is the identity on the byte sequence. -/
def readString (buf : Bytes) : Except String (Bytes × Bytes) := do
  let (len, b1) ← getU16 buf
  if len ≤ b1.length then .ok (b1.take len, b1.drop len) else .error "RangeError"

/-- ByteArray payload: `Array.from(new Int8Array(buffer, offset, len))`.
A negative length is rejected by `ToIndex` and an overlong one by the
bounds check; otherwise the bytes are read through a signed view. -/
def readI8Slice (len : Int) (buf : Bytes) : Except String (List Int × Bytes) :=
  if len < 0 then .error "RangeError"
  else if len.toNat ≤ buf.length then
    .ok ((buf.take len.toNat).map sbyte, buf.drop len.toNat)
  else .error "RangeError"

/-- IntArray payload loop: `for(i=0; i<lenInt; i++) getInt32`; a negative
count runs zero iterations. -/
def readI32Seq : Nat → Bytes → Except String (List Int × Bytes)
  | 0, buf => .ok ([], buf)
  | n + 1, buf => do
    let (x, b1) ← getI32 buf
    let (xs, b2) ← readI32Seq n b1
    .ok (x :: xs, b2)

/-- LongArray payload loop: `for(i=0; i<lenLong; i++) parseLong`. -/
def readLongSeq : Nat → Bytes → Except String (List Int × Bytes)
  | 0, buf => .ok ([], buf)
  | n + 1, buf => do
    let (x, b1) ← parseLong buf
    let (xs, b2) ← readLongSeq n b1
    .ok (x :: xs, b2)

mutual
/-- `readTag(isRoot, forcedType, forcedName)`.  `forcedType === undefined`
is `forced = none`.  An `End` kind byte returns `{type, name: null,
value: null}` immediately; the name is read when `name === null` and
(`isRoot` or no forced type); then the payload `switch` (factored out as
`readValue` below) runs and the tag `{type, name, value}` is returned. -/
def readTag : Nat → Bytes → Bool → Option Nat → Option Bytes →
    Except String (NBTTag × Bytes)
  | 0, _, _, _, _ => .error "fuel"
  | f + 1, buf, isRoot, forced, forcedName => do
    let (ty, buf1) ←
      match forced with
      | some t => (.ok (t, buf) : Except String (Nat × Bytes))
      | none => getU8 buf
    if ty = 0 then
      .ok (.mk 0 none .vNull, buf1)
    else do
      let (nm, buf2) ←
        if forcedName.isNone && (isRoot || forced.isNone) then do
          let (s, b) ← readString buf1
          (.ok (some s, b) : Except String (Option Bytes × Bytes))
        else .ok (forcedName, buf1)
      let (v, b) ← readValue f ty buf2
      .ok (.mk ty nm v, b)

/-- The payload `switch (type)` of `readTag`.  Kinds outside 0–12 fall
through the switch leaving `value` `undefined`. -/
def readValue : Nat → Nat → Bytes → Except String (NBTValue × Bytes)
  | 0, _, _ => .error "fuel"
  | f + 1, ty, buf =>
    match ty with
    | 1 => do let (i, b) ← getI8 buf; .ok (.vNum i, b)
    | 2 => do let (i, b) ← getI16 buf; .ok (.vNum i, b)
    | 3 => do let (i, b) ← getI32 buf; .ok (.vNum i, b)
    | 4 => do let (i, b) ← parseLong buf; .ok (.vBig i, b)
    | 5 => do let (u, b) ← getU32 buf; .ok (.vF32 u, b)
    | 6 => do let (u, b) ← getU64 buf; .ok (.vF64 u, b)
    | 7 => do
        let (len, b0) ← getI32 buf
        let (xs, b) ← readI8Slice len b0
        .ok (.vNums xs, b)
    | 8 => do let (s, b) ← readString buf; .ok (.vStr s, b)
    | 9 => do
        let (it, b0) ← getU8 buf
        let (cnt, b1) ← getI32 b0
        let (l, b) ← readItems f cnt.toNat it b1
        .ok (.vListV it l, b)
    | 10 => do
        let (cs, b) ← readChildren f buf
        .ok (.vCompound cs, b)
    | 11 => do
        let (len, b0) ← getI32 buf
        let (xs, b) ← readI32Seq len.toNat b0
        .ok (.vNums xs, b)
    | 12 => do
        let (len, b0) ← getI32 buf
        let (xs, b) ← readLongSeq len.toNat b0
        .ok (.vBigs xs, b)
    | _ => .ok (.vUndef, buf)

/-- The List payload loop: `for (i = 0; i < listLen; i++)
value.list.push(this.readTag(false, itemType, null))`. -/
def readItems : Nat → Nat → Nat → Bytes → Except String (List NBTTag × Bytes)
  | 0, _, _, _ => .error "fuel"
  | _ + 1, 0, _, buf => .ok ([], buf)
  | f + 1, n + 1, it, buf => do
    let (t, b1) ← readTag f buf false (some it) none
    let (ts, b2) ← readItems f n it b1
    .ok (t :: ts, b2)

/-- The Compound payload loop: peek one byte; `End` consumes it and stops;
otherwise read one full named child and continue. -/
def readChildren : Nat → Bytes → Except String (List NBTTag × Bytes)
  | 0, _ => .error "fuel"
  | f + 1, buf => do
    let (next, _) ← getU8 buf
    if next = 0 then .ok ([], buf.drop 1)
    else do
      let (c, b1) ← readTag f buf false none none
      let (cs, b2) ← readChildren f b1
      .ok (c :: cs, b2)
end

/-- Fuel that provably dominates the reader's recursion on any buffer the
theorems below evaluate it on; the source has no fuel (its recursion is
bounded by the finite buffer and 32-bit loop counters). -/
def fuelFor (buf : Bytes) : Nat := (buf.length + 2) * 4294967296

/-- `NBTParser.parse`: gzip magic check on the first two bytes
(`arr[0] === 0x1f && arr[1] === 0x8b`; out-of-range indexing yields
`undefined`, which fails the test), decompression through the abstract
`ungzip` oracle (`none` models a `pako` throw, turned into the fatal
`"Invalid GZIP format"` error), then `readTag(true)` on the final buffer. -/
def parse (ungzip : Bytes → Option Bytes) (buf : Bytes) :
    Except String (NBTTag × Bool) :=
  if buf[0]? = some 31 ∧ buf[1]? = some 139 then
    match ungzip buf with
    | none => .error "Invalid GZIP format"
    | some inflated =>
      match readTag (fuelFor inflated) inflated true none none with
      | .ok (root, _) => .ok (root, true)
      | .error e => .error e
  else
    match readTag (fuelFor buf) buf true none none with
    | .ok (root, _) => .ok (root, false)
    | .error e => .error e

end NBTParser

/-! ## Tree utilities (`src/unnamed/part_002`) -/

/-- The path of the document root, the string `"root"`. -/
def rootPath : Bytes := [114, 111, 111, 116]

/-- The path of a Compound child: `` `${parentPath}.${child.name}` ``.
A JS template literal renders a `null` name as the text `"null"`. -/
def childPath (parentPath : Bytes) (name : Option Bytes) : Bytes :=
  parentPath ++ [46] ++ name.getD [110, 117, 108, 108]

/-- The path of a List element: `` `${parentPath}[${idx}]` `` with the
index in decimal. -/
def itemPath (parentPath : Bytes) (idx : Nat) : Bytes :=
  parentPath ++ [91] ++ (Nat.toDigits 10 idx).map Char.toNat ++ [93]

mutual
/-- `cloneTag`: deep clone.  `Array.isArray(value)` holds for the Compound
child array and the primitive arrays (Compound recurses, the others take a
shallow `[...value]` copy, which on pure values is the value itself);
`typeof value === 'object'` catches the List record, whose elements are
cloned; all other payloads are copied by value with `{...tag}`. -/
def cloneTag : NBTTag → NBTTag
  | .mk ty nm (.vCompound cs) =>
    if ty = 10 then .mk ty nm (.vCompound (cloneTags cs))
    else .mk ty nm (.vCompound cs)
  | .mk ty nm (.vNums xs) => .mk ty nm (.vNums xs)
  | .mk ty nm (.vBigs xs) => .mk ty nm (.vBigs xs)
  | .mk ty nm (.vListV it l) =>
    if ty = 9 then .mk ty nm (.vListV it (cloneTags l))
    else .mk ty nm (.vListV it l)
  | t => t

/-- `(tag.value as NBTTag[]).map(cloneTag)` / `value.list.map(cloneTag)`. -/
def cloneTags : List NBTTag → List NBTTag
  | [] => []
  | t :: ts => cloneTag t :: cloneTags ts
end

mutual
/-- `flattenTree`: the pre-order list of the current paths of every node
(the node's own path first, then Compound children in stored order or List
elements in index order).  A node whose `type` claims a container but
whose payload is not the matching shape contributes no children (the
source would crash iterating it). -/
def flattenTree : NBTTag → Bytes → List Bytes
  | .mk ty _ v, parentPath =>
    parentPath ::
      (if ty = 10 then
        match v with
        | .vCompound cs => flattenChildren cs parentPath
        | _ => []
      else if ty = 9 then
        match v with
        | .vListV _ l => flattenItems l parentPath 0
        | _ => []
      else [])

/-- The Compound `forEach` of `flattenTree`. -/
def flattenChildren : List NBTTag → Bytes → List Bytes
  | [], _ => []
  | c :: cs, parentPath =>
    flattenTree c (childPath parentPath c.name) ++
      flattenChildren cs parentPath

/-- The List `forEach` of `flattenTree`, carrying the element index. -/
def flattenItems : List NBTTag → Bytes → Nat → List Bytes
  | [], _, _ => []
  | c :: cs, parentPath, idx =>
    flattenTree c (itemPath parentPath idx) ++
      flattenItems cs parentPath (idx + 1)
end

mutual
/-- The inner `recursiveDelete` of `deleteNodesByPaths`: `null` (here
`none`) signals that this node is to be deleted; a Compound or List
rebuilds its surviving children. -/
def recursiveDelete (S : List Bytes) : NBTTag → Bytes → Option NBTTag
  | .mk ty nm v, currentPath =>
    if currentPath ∈ S then none
    else if ty = 10 then
      match v with
      | .vCompound cs =>
        some (.mk ty nm (.vCompound (deleteChildren S cs currentPath)))
      | _ => some (.mk ty nm v)
    else if ty = 9 then
      match v with
      | .vListV it l =>
        some (.mk ty nm (.vListV it (deleteItems S l currentPath 0)))
      | _ => some (.mk ty nm v)
    else some (.mk ty nm v)

/-- The Compound branch:
`.map(child => recursiveDelete(child, path)).filter(child => child !== null)`,
i.e. a filter-map preserving relative order. -/
def deleteChildren (S : List Bytes) : List NBTTag → Bytes → List NBTTag
  | [], _ => []
  | c :: cs, p =>
    match recursiveDelete S c (childPath p c.name) with
    | none => deleteChildren S cs p
    | some c' => c' :: deleteChildren S cs p

/-- The List branch, with the static element index in the path. -/
def deleteItems (S : List Bytes) : List NBTTag → Bytes → Nat → List NBTTag
  | [], _, _ => []
  | c :: cs, p, idx =>
    match recursiveDelete S c (itemPath p idx) with
    | none => deleteItems S cs p (idx + 1)
    | some c' => c' :: deleteItems S cs p (idx + 1)
end

/-- `deleteNodesByPaths(root, pathsToDelete)`: clone, walk from `'root'`,
and on a deleted root fall back to `{ ...root, value: [] }` — the source
writes the untyped empty JS array, rendered here as the empty child
sequence. -/
def deleteNodesByPaths (root : NBTTag) (S : List Bytes) : NBTTag :=
  match recursiveDelete S (cloneTag root) rootPath with
  | some r => r
  | none => .mk root.type root.name (.vCompound [])

mutual
/-- Modelled from the claim's wording (specification-side, for refinement
against `recursiveDelete`): keep a node whose current path is not in the
set, first discarding the children whose own paths are in the set (their
subtrees are dropped without being descended into), then recursing into
the survivors in order. -/
def specKeep (S : List Bytes) : NBTTag → Bytes → NBTTag
  | .mk ty nm v, p =>
    if ty = 10 then
      match v with
      | .vCompound cs => .mk ty nm (.vCompound (specKeepChildren S cs p))
      | _ => .mk ty nm v
    else if ty = 9 then
      match v with
      | .vListV it l => .mk ty nm (.vListV it (specKeepItems S l p 0))
      | _ => .mk ty nm v
    else .mk ty nm v

/-- Surviving Compound children: filter by path membership first, then
keep each survivor recursively. -/
def specKeepChildren (S : List Bytes) : List NBTTag → Bytes → List NBTTag
  | [], _ => []
  | c :: cs, p =>
    if childPath p c.name ∈ S then specKeepChildren S cs p
    else specKeep S c (childPath p c.name) :: specKeepChildren S cs p

/-- Surviving List elements, by static index. -/
def specKeepItems (S : List Bytes) : List NBTTag → Bytes → Nat → List NBTTag
  | [], _, _ => []
  | c :: cs, p, idx =>
    if itemPath p idx ∈ S then specKeepItems S cs p (idx + 1)
    else specKeep S c (itemPath p idx) :: specKeepItems S cs p (idx + 1)
end

/-- The specification-side walk: drop the node when its current path is in
the set, keep it (with surviving children) otherwise. -/
def specWalk (S : List Bytes) (t : NBTTag) (p : Bytes) : Option NBTTag :=
  if p ∈ S then none else some (specKeep S t p)

/-! ## History management (`src/components/PlayerPreview.tsx`) and
add-child (`src/components/NBTNode.tsx`) -/

/-- `interface NBTFile` (src/unnamed/part_000). -/
structure NBTFile where
  id : Bytes
  filename : Bytes
  root : NBTTag
  isCompressed : Bool
  isModified : Bool
  undoStack : List NBTTag
  redoStack : List NBTTag

/-- `Array.prototype.slice(-n)`: the last `min n length` elements. -/
def sliceLast (n : Nat) (l : List NBTTag) : List NBTTag :=
  l.drop (l.length - n)

/-- `pushHistory(fileId, newRoot)` on the matching file: push a clone of
the current root (capped to the most recent 50 with `slice(-50)`), install
the new root, clear the redo stack, mark modified. -/
def pushHistory (f : NBTFile) (newRoot : NBTTag) : NBTFile :=
  { f with
      root := newRoot, isModified := true,
      undoStack := sliceLast 50 (f.undoStack ++ [cloneTag f.root]),
      redoStack := [] }

/-- `handleUndo`: no-op on an empty undo stack; otherwise restore the last
undo entry, push a clone of the current root onto the redo stack. -/
def handleUndo (f : NBTFile) : NBTFile :=
  match f.undoStack.getLast? with
  | none => f
  | some prevRoot =>
    { f with
        root := prevRoot, undoStack := f.undoStack.dropLast,
        redoStack := f.redoStack ++ [cloneTag f.root], isModified := true }

/-- `handleRedo`: symmetric to `handleUndo`. -/
def handleRedo (f : NBTFile) : NBTFile :=
  match f.redoStack.getLast? with
  | none => f
  | some nextRoot =>
    { f with
        root := nextRoot, redoStack := f.redoStack.dropLast,
        undoStack := f.undoStack ++ [cloneTag f.root], isModified := true }

/-- The document states reachable from a fresh file (opened with empty
stacks, unmodified — `handleFileUpload`) under any interleaving of
commits, undos and redos. -/
inductive Reachable : NBTFile → Prop where
  | opened (id filename : Bytes) (root : NBTTag) (isCompressed : Bool) :
      Reachable ⟨id, filename, root, isCompressed, false, [], []⟩
  | commit {f : NBTFile} (newRoot : NBTTag) :
      Reachable f → Reachable (pushHistory f newRoot)
  | undo {f : NBTFile} : Reachable f → Reachable (handleUndo f)
  | redo {f : NBTFile} : Reachable f → Reachable (handleRedo f)

/-- The `defaultValue` computation of `handleAddChild`'s List branch:
`0`, overridden to `""` for String and to `[]` (an empty child array) for
Compound; every other kind — Lists and the primitive arrays included —
keeps the numeric `0`. -/
def addDefault (it : Nat) : NBTValue :=
  if it = 8 then .vStr []
  else if it = 10 then .vCompound []
  else .vNum 0

set_option linter.unusedVariables false in
/-- `handleAddChild(parentType)` (the parameter is unused in the source):
a Compound target appends the fixed child `new_tag: 'value'` (a String);
a List target appends an unnamed child of the list's declared element kind
with `addDefault`; any other target does not call `onUpdate` (`none`).
A container whose payload does not match its kind is outside the model
(the source would crash spreading it). -/
def handleAddChild (tag : NBTTag) (parentType : Nat) : Option NBTTag :=
  if tag.type = 10 then
    match tag with
    | .mk ty nm (.vCompound cs) =>
      some (.mk ty nm (.vCompound (cs ++
        [.mk 8 (some [110, 101, 119, 95, 116, 97, 103])
          (.vStr [118, 97, 108, 117, 101])])))
    | _ => none
  else if tag.type = 9 then
    match tag with
    | .mk ty nm (.vListV it l) =>
      some (.mk ty nm (.vListV it (l ++ [.mk it none (addDefault it)])))
    | _ => none
  else none

section WellFormed

/-- A name (or string payload) that survives the wire format: its UTF-8
byte sequence is made of bytes and its 16-bit length prefix is exact. -/
def wfName : Option Bytes → Bool
  | none => false
  | some s => decide (s.length < 65536) && s.all (fun b => decide (b < 256))

mutual
/-- Well-formedness of a named tag (the document root or a Compound child),
i.e. the trees "representable in the format": the kind byte is one of the
twelve real kinds, the name is present and encodable, and the payload is
shaped by the kind with every scalar in its kind's range. -/
def wfTag : NBTTag → Bool
  | .mk ty nm v =>
    decide (1 ≤ ty) && decide (ty ≤ 12) && wfName nm && wfValue ty v

/-- Well-formedness of a List element of declared element kind `it`:
unnamed, of exactly the declared kind, with a well-formed payload. -/
def wfItem : Nat → NBTTag → Bool
  | it, .mk ty nm v =>
    nm.isNone && decide (ty = it) && decide (1 ≤ ty) && decide (ty ≤ 12) &&
      wfValue ty v

/-- Payload well-formedness for each kind.  Lengths stay under `2^31`
(written as a signed 32-bit count), strings under `2^16`; a List's declared
element kind fits in its byte, and its children are well-formed elements of
that kind (which in particular forces a nonempty List's element kind into
1–12, so an `End`-kind List must be empty). -/
def wfValue : Nat → NBTValue → Bool
  | 1, .vNum i => decide (-128 ≤ i ∧ i < 128)
  | 2, .vNum i => decide (-32768 ≤ i ∧ i < 32768)
  | 3, .vNum i => decide (-2147483648 ≤ i ∧ i < 2147483648)
  | 4, .vBig i => decide (-9223372036854775808 ≤ i ∧ i < 9223372036854775808)
  | 5, .vF32 b => decide (b < 4294967296)
  | 6, .vF64 b => decide (b < 18446744073709551616)
  | 7, .vNums xs =>
    decide (xs.length < 2147483648) &&
      xs.all (fun x => decide (-128 ≤ x ∧ x < 128))
  | 8, .vStr s => wfName (some s)
  | 9, .vListV it l =>
    decide (it < 256) && decide (l.length < 2147483648) && wfItems it l
  | 10, .vCompound cs => wfChildren cs
  | 11, .vNums xs =>
    decide (xs.length < 2147483648) &&
      xs.all (fun x => decide (-2147483648 ≤ x ∧ x < 2147483648))
  | 12, .vBigs xs =>
    decide (xs.length < 2147483648) &&
      xs.all (fun x =>
        decide (-9223372036854775808 ≤ x ∧ x < 9223372036854775808))
  | _, _ => false

/-- All elements of a List payload are well-formed elements of kind `it`. -/
def wfItems : Nat → List NBTTag → Bool
  | _, [] => true
  | it, t :: ts => wfItem it t && wfItems it ts

/-- All children of a Compound payload are well-formed named tags. -/
def wfChildren : List NBTTag → Bool
  | [] => true
  | t :: ts => wfTag t && wfChildren ts
end

-- Recursion measure used as fuel budget: one unit per tag, per payload and
-- per list node.
mutual
def sizeT : NBTTag → Nat
  | .mk _ _ v => 1 + sizeV v

def sizeV : NBTValue → Nat
  | .vListV _ l => 1 + sizeL l
  | .vCompound cs => 1 + sizeL cs
  | _ => 1

def sizeL : List NBTTag → Nat
  | [] => 1
  | t :: ts => 1 + sizeT t + sizeL ts
end

/-- Joint induction motive for the decode-of-encode round trip at fuel `f`:
well-formed named tags, list elements, payloads, element sequences and
child sequences all read back exactly, whatever bytes follow. -/
def ReaderOk (f : Nat) : Prop :=
  (∀ t rest isRoot, wfTag t = true → sizeT t ≤ f →
      NBTParser.readTag f (NBTWriter.writeTag t isRoot false ++ rest) isRoot
        none none = .ok (t, rest)) ∧
  (∀ it t rest, wfItem it t = true → sizeT t ≤ f →
      NBTParser.readTag f (NBTWriter.writeTag t false true ++ rest) false
        (some it) none = .ok (t, rest)) ∧
  (∀ ty v rest, wfValue ty v = true → 1 ≤ ty → ty ≤ 12 → sizeV v ≤ f →
      NBTParser.readValue f ty (NBTWriter.writeValue ty v ++ rest)
        = .ok (v, rest)) ∧
  (∀ it l rest, wfItems it l = true → sizeL l ≤ f →
      NBTParser.readItems f l.length it (NBTWriter.writeItems l ++ rest)
        = .ok (l, rest)) ∧
  (∀ cs rest, wfChildren cs = true → sizeL cs ≤ f →
      NBTParser.readChildren f (NBTWriter.writeChildren cs ++ 0 :: rest)
        = .ok (cs, rest))

/-- A reader only looks at the prefix of the buffer it consumes: if it
succeeds leaving `r`, the input splits as `u ++ r` and the reader returns
the same value on `u` followed by anything. -/
def Consumes {α : Type} (g : Bytes → Except String (α × Bytes)) : Prop :=
  ∀ buf a r, g buf = .ok (a, r) →
    ∃ u, buf = u ++ r ∧ ∀ r', g (u ++ r') = .ok (a, r')

/-- Joint motive for prefix-consumption and fuel monotonicity of the
reader at fuel `f`: a successful read leaving `r` used exactly the prefix
before `r`, and re-reading that prefix with any other suffix and any fuel
at least `f` succeeds identically.  (The forced-name argument is `none` at
every call site in the source.) -/
def ReaderExt (f : Nat) : Prop :=
  (∀ buf isRoot forced t r,
      NBTParser.readTag f buf isRoot forced none = .ok (t, r) →
      ∃ u, buf = u ++ r ∧ ∀ f', f ≤ f' → ∀ r',
        NBTParser.readTag f' (u ++ r') isRoot forced none = .ok (t, r')) ∧
  (∀ ty buf v r,
      NBTParser.readValue f ty buf = .ok (v, r) →
      ∃ u, buf = u ++ r ∧ ∀ f', f ≤ f' → ∀ r',
        NBTParser.readValue f' ty (u ++ r') = .ok (v, r')) ∧
  (∀ n it buf l r,
      NBTParser.readItems f n it buf = .ok (l, r) →
      ∃ u, buf = u ++ r ∧ ∀ f', f ≤ f' → ∀ r',
        NBTParser.readItems f' n it (u ++ r') = .ok (l, r')) ∧
  (∀ buf cs r,
      NBTParser.readChildren f buf = .ok (cs, r) →
      ∃ u, buf = u ++ r ∧ ∀ f', f ≤ f' → ∀ r',
        NBTParser.readChildren f' (u ++ r') = .ok (cs, r'))

theorem sizeV_pos (v : NBTValue) : 1 ≤ sizeV v := by
  cases v <;> simp [sizeV]

theorem sizeT_pos (t : NBTTag) : 2 ≤ sizeT t := by
  cases t with
  | mk ty nm v =>
    have := sizeV_pos v
    simp only [sizeT]
    omega

theorem sizeL_pos (l : List NBTTag) : 1 ≤ sizeL l := by
  cases l with
  | nil => simp [sizeL]
  | cons t ts => simp only [sizeL]; omega

end WellFormed

/-- Reduction of `Except` bind on a success value (the only monadic glue the
reader's `do` blocks use). -/
@[simp] theorem ok_bind {ε α β : Type} (a : α) (f : α → Except ε β) :
    (Except.ok a : Except ε α) >>= f = f a := rfl

/-- Reduction of `Except` bind on an error value. -/
@[simp] theorem error_bind {ε α β : Type} (e : ε) (f : α → Except ε β) :
    (Except.error e : Except ε α) >>= f = Except.error e := rfl

section LongRoundTrip

/-- `getI32` back from `writeInt i` gives the 32-bit wrap of `i`. -/
theorem getI32_writeInt (i : Int) (rest : Bytes) :
    NBTParser.getI32 (NBTWriter.writeInt i ++ rest) =
      .ok (if i % 4294967296 ≥ 2147483648 then i % 4294967296 - 4294967296
           else i % 4294967296, rest) := by
  simp only [NBTWriter.writeInt, NBTParser.getI32, NBTParser.getU32,
    List.cons_append, List.nil_append, ok_bind, Except.ok.injEq,
    Prod.mk.injEq]
  refine ⟨?_, trivial⟩
  split_ifs <;> omega

/-- `getI32` back from `writeInt i` is exact on the 32-bit signed range. -/
theorem getI32_writeInt_exact (i : Int) (rest : Bytes)
    (h1 : -2147483648 ≤ i) (h2 : i < 2147483648) :
    NBTParser.getI32 (NBTWriter.writeInt i ++ rest) = .ok (i, rest) := by
  rw [getI32_writeInt]
  split_ifs with h <;>
    · simp only [Except.ok.injEq, Prod.mk.injEq]
      exact ⟨by omega, trivial⟩

/-- `parseLong` back from `writeLong v` is exact on the 64-bit signed range,
entirely in integer arithmetic. -/
theorem parseLong_writeLong (v : Int) (rest : Bytes)
    (h1 : -9223372036854775808 ≤ v) (h2 : v < 9223372036854775808) :
    NBTParser.parseLong (NBTWriter.writeLong v ++ rest) = .ok (v, rest) := by
  have hhi : -2147483648 ≤ v / 4294967296 ∧ v / 4294967296 < 2147483648 := by
    omega
  simp only [NBTWriter.writeLong, List.append_assoc]
  simp only [NBTParser.parseLong, getI32_writeInt_exact _ _ hhi.1 hhi.2,
    ok_bind, getI32_writeInt, Except.ok.injEq, Prod.mk.injEq]
  refine ⟨?_, trivial⟩
  split_ifs <;> omega

theorem getU8_cons (b : Nat) (rest : Bytes) :
    NBTParser.getU8 (b :: rest) = .ok (b, rest) := rfl

/-- `writeByte` on a kind byte below 256 emits exactly that byte. -/
theorem writeByte_ofNat (n : Nat) (h : n < 256) :
    NBTWriter.writeByte (n : Int) = [n] := by
  simp only [NBTWriter.writeByte]
  congr 1
  omega

theorem getI8_writeByte (i : Int) (rest : Bytes)
    (h1 : -128 ≤ i) (h2 : i < 128) :
    NBTParser.getI8 (NBTWriter.writeByte i ++ rest) = .ok (i, rest) := by
  simp only [NBTWriter.writeByte, List.cons_append, List.nil_append,
    NBTParser.getI8, sbyte, Except.ok.injEq, Prod.mk.injEq]
  refine ⟨?_, trivial⟩
  split_ifs <;> omega

theorem getI16_writeShort (i : Int) (rest : Bytes)
    (h1 : -32768 ≤ i) (h2 : i < 32768) :
    NBTParser.getI16 (NBTWriter.writeShort i ++ rest) = .ok (i, rest) := by
  simp only [NBTWriter.writeShort, NBTParser.getI16, NBTParser.getU16,
    List.cons_append, List.nil_append, ok_bind, Except.ok.injEq,
    Prod.mk.injEq]
  refine ⟨?_, trivial⟩
  split_ifs <;> omega

theorem getU32_writeFloat (b : Nat) (rest : Bytes) (h : b < 4294967296) :
    NBTParser.getU32 (NBTWriter.writeFloat b ++ rest) = .ok (b, rest) := by
  simp only [NBTWriter.writeFloat, NBTParser.getU32, List.cons_append,
    List.nil_append, Except.ok.injEq, Prod.mk.injEq]
  exact ⟨by omega, trivial⟩

theorem getU64_writeDouble (b : Nat) (rest : Bytes)
    (h : b < 18446744073709551616) :
    NBTParser.getU64 (NBTWriter.writeDouble b ++ rest) = .ok (b, rest) := by
  simp only [NBTWriter.writeDouble, NBTParser.getU64, NBTParser.getU32,
    List.cons_append, List.nil_append, ok_bind, Except.ok.injEq,
    Prod.mk.injEq]
  exact ⟨by omega, trivial⟩

theorem map_mod_eq_self (s : Bytes)
    (h : s.all (fun b => decide (b < 256)) = true) :
    s.map (fun b => b % 256) = s := by
  induction s with
  | nil => rfl
  | cons b s ih =>
    simp only [List.all_cons, Bool.and_eq_true, decide_eq_true_eq] at h
    simp [ih h.2, Nat.mod_eq_of_lt h.1]

theorem readString_writeString (s : Bytes) (rest : Bytes)
    (h : wfName (some s) = true) :
    NBTParser.readString (NBTWriter.writeString s ++ rest) = .ok (s, rest) := by
  simp only [wfName, Bool.and_eq_true, decide_eq_true_eq] at h
  obtain ⟨hlen, hbytes⟩ := h
  have hu : ((s.length : Int) % 65536).toNat = s.length := by omega
  simp only [NBTWriter.writeString, NBTWriter.writeShort, hu,
    map_mod_eq_self s hbytes, List.append_assoc, NBTParser.readString,
    NBTParser.getU16, List.cons_append, List.nil_append, ok_bind]
  have hq : s.length / 256 * 256 + s.length % 256 = s.length := by omega
  rw [hq, if_pos (by simp only [List.length_append]; omega),
    List.take_left, List.drop_left]

theorem writeByteSeq_eq (xs : List Int) :
    NBTWriter.writeByteSeq xs = xs.map (fun x => (x % 256).toNat) := by
  induction xs with
  | nil => rfl
  | cons x xs ih => simp [NBTWriter.writeByteSeq, NBTWriter.writeByte, ih]

theorem map_sbyte_mod (xs : List Int)
    (hall : xs.all (fun x => decide (-128 ≤ x ∧ x < 128)) = true) :
    (xs.map (fun x => (x % 256).toNat)).map sbyte = xs := by
  induction xs with
  | nil => rfl
  | cons x xs ih =>
    simp only [List.all_cons, Bool.and_eq_true, decide_eq_true_eq] at hall
    simp only [List.map_cons, ih hall.2, List.cons.injEq, and_true, sbyte]
    split_ifs <;> omega

theorem readI8Slice_writeByteSeq (xs : List Int) (rest : Bytes)
    (hall : xs.all (fun x => decide (-128 ≤ x ∧ x < 128)) = true) :
    NBTParser.readI8Slice (xs.length : Int) (NBTWriter.writeByteSeq xs ++ rest)
      = .ok (xs, rest) := by
  have hmaplen : (xs.map (fun x => (x % 256).toNat)).length = xs.length := by
    simp
  have htn : ((xs.length : Int)).toNat = xs.length := by omega
  rw [writeByteSeq_eq]
  simp only [NBTParser.readI8Slice, htn]
  rw [if_neg (by omega),
    if_pos (by simp only [List.length_append, hmaplen]; omega),
    ← hmaplen, List.take_left, List.drop_left,
    map_sbyte_mod xs hall]

theorem readI32Seq_writeIntSeq (xs : List Int) (rest : Bytes)
    (hall : xs.all (fun x =>
      decide (-2147483648 ≤ x ∧ x < 2147483648)) = true) :
    NBTParser.readI32Seq xs.length (NBTWriter.writeIntSeq xs ++ rest)
      = .ok (xs, rest) := by
  induction xs with
  | nil => simp [NBTParser.readI32Seq, NBTWriter.writeIntSeq]
  | cons x xs ih =>
    simp only [List.all_cons, Bool.and_eq_true, decide_eq_true_eq] at hall
    simp only [NBTWriter.writeIntSeq, List.append_assoc, List.length_cons,
      NBTParser.readI32Seq,
      getI32_writeInt_exact x _ hall.1.1 hall.1.2, ok_bind,
      ih (by simpa using hall.2), Except.ok.injEq, Prod.mk.injEq]

theorem readLongSeq_writeLongSeq (xs : List Int) (rest : Bytes)
    (hall : xs.all (fun x =>
      decide (-9223372036854775808 ≤ x ∧ x < 9223372036854775808)) = true) :
    NBTParser.readLongSeq xs.length (NBTWriter.writeLongSeq xs ++ rest)
      = .ok (xs, rest) := by
  induction xs with
  | nil => simp [NBTParser.readLongSeq, NBTWriter.writeLongSeq]
  | cons x xs ih =>
    simp only [List.all_cons, Bool.and_eq_true, decide_eq_true_eq] at hall
    simp only [NBTWriter.writeLongSeq, List.append_assoc, List.length_cons,
      NBTParser.readLongSeq,
      parseLong_writeLong x _ hall.1.1 hall.1.2, ok_bind,
      ih (by simpa using hall.2), Except.ok.injEq, Prod.mk.injEq]

end LongRoundTrip

section RoundTrip

theorem writeTag_named (ty : Nat) (v : NBTValue) (isRoot : Bool) (s : Bytes) :
    NBTWriter.writeTag (.mk ty (some s) v) isRoot false =
      NBTWriter.writeByte (ty : Int) ++
        (NBTWriter.writeString s ++ NBTWriter.writeValue ty v) := by
  cases isRoot <;> simp [NBTWriter.writeTag]

theorem writeTag_item (ty : Nat) (nm : Option Bytes) (v : NBTValue) :
    NBTWriter.writeTag (.mk ty nm v) false true = NBTWriter.writeValue ty v := by
  simp [NBTWriter.writeTag]

theorem writeByte_zero : NBTWriter.writeByte 0 = [0] := rfl

/-- The peek at the head of an encoded named tag sees its kind byte and
leaves the buffer alone. -/
theorem getU8_writeTag_named (ty : Nat) (s : Bytes) (v : NBTValue) (r : Bytes)
    (h : ty < 256) :
    NBTParser.getU8 (NBTWriter.writeTag (.mk ty (some s) v) false false ++ r) =
      .ok (ty, (NBTWriter.writeString s ++ NBTWriter.writeValue ty v) ++ r) := by
  rw [writeTag_named ty v false s, writeByte_ofNat ty h]
  simp [NBTParser.getU8]

/-!
The thirteen-row `switch` of `writeValue` / `readValue` / `wfValue` mixes
numeric-literal and constructor patterns, for which Lean generates no match
equations; the per-kind reductions below are definitional and restate each
row so the proofs can rewrite with them.
-/

theorem writeValue_byte (i : Int) :
    NBTWriter.writeValue 1 (.vNum i) = NBTWriter.writeByte i := rfl

theorem writeValue_short (i : Int) :
    NBTWriter.writeValue 2 (.vNum i) = NBTWriter.writeShort i := rfl

theorem writeValue_int (i : Int) :
    NBTWriter.writeValue 3 (.vNum i) = NBTWriter.writeInt i := rfl

theorem writeValue_long (i : Int) :
    NBTWriter.writeValue 4 (.vBig i) = NBTWriter.writeLong i := rfl

theorem writeValue_float (b : Nat) :
    NBTWriter.writeValue 5 (.vF32 b) = NBTWriter.writeFloat b := rfl

theorem writeValue_double (b : Nat) :
    NBTWriter.writeValue 6 (.vF64 b) = NBTWriter.writeDouble b := rfl

theorem writeValue_bytearray (xs : List Int) :
    NBTWriter.writeValue 7 (.vNums xs) =
      NBTWriter.writeInt (xs.length : Int) ++ NBTWriter.writeByteSeq xs := rfl

theorem writeValue_string (s : Bytes) :
    NBTWriter.writeValue 8 (.vStr s) = NBTWriter.writeString s := rfl

theorem writeValue_list (it : Nat) (l : List NBTTag) :
    NBTWriter.writeValue 9 (.vListV it l) =
      NBTWriter.writeByte (it : Int) ++ NBTWriter.writeInt (l.length : Int) ++
        NBTWriter.writeItems l := rfl

theorem writeValue_compound (cs : List NBTTag) :
    NBTWriter.writeValue 10 (.vCompound cs) =
      NBTWriter.writeChildren cs ++ NBTWriter.writeByte 0 := rfl

theorem writeValue_intarray (xs : List Int) :
    NBTWriter.writeValue 11 (.vNums xs) =
      NBTWriter.writeInt (xs.length : Int) ++ NBTWriter.writeIntSeq xs := rfl

theorem writeValue_longarray (xs : List Int) :
    NBTWriter.writeValue 12 (.vBigs xs) =
      NBTWriter.writeInt (xs.length : Int) ++ NBTWriter.writeLongSeq xs := rfl

theorem readValue_byte (f : Nat) (buf : Bytes) :
    NBTParser.readValue (f + 1) 1 buf = (do
      let (i, b) ← NBTParser.getI8 buf
      Except.ok (.vNum i, b)) := rfl

theorem readValue_short (f : Nat) (buf : Bytes) :
    NBTParser.readValue (f + 1) 2 buf = (do
      let (i, b) ← NBTParser.getI16 buf
      Except.ok (.vNum i, b)) := rfl

theorem readValue_int (f : Nat) (buf : Bytes) :
    NBTParser.readValue (f + 1) 3 buf = (do
      let (i, b) ← NBTParser.getI32 buf
      Except.ok (.vNum i, b)) := rfl

theorem readValue_long (f : Nat) (buf : Bytes) :
    NBTParser.readValue (f + 1) 4 buf = (do
      let (i, b) ← NBTParser.parseLong buf
      Except.ok (.vBig i, b)) := rfl

theorem readValue_float (f : Nat) (buf : Bytes) :
    NBTParser.readValue (f + 1) 5 buf = (do
      let (u, b) ← NBTParser.getU32 buf
      Except.ok (.vF32 u, b)) := rfl

theorem readValue_double (f : Nat) (buf : Bytes) :
    NBTParser.readValue (f + 1) 6 buf = (do
      let (u, b) ← NBTParser.getU64 buf
      Except.ok (.vF64 u, b)) := rfl

theorem readValue_bytearray (f : Nat) (buf : Bytes) :
    NBTParser.readValue (f + 1) 7 buf = (do
      let (len, b0) ← NBTParser.getI32 buf
      let (xs, b) ← NBTParser.readI8Slice len b0
      Except.ok (.vNums xs, b)) := rfl

theorem readValue_string (f : Nat) (buf : Bytes) :
    NBTParser.readValue (f + 1) 8 buf = (do
      let (s, b) ← NBTParser.readString buf
      Except.ok (.vStr s, b)) := rfl

theorem readValue_list (f : Nat) (buf : Bytes) :
    NBTParser.readValue (f + 1) 9 buf = (do
      let (it, b0) ← NBTParser.getU8 buf
      let (cnt, b1) ← NBTParser.getI32 b0
      let (l, b) ← NBTParser.readItems f cnt.toNat it b1
      Except.ok (.vListV it l, b)) := rfl

theorem readValue_compound (f : Nat) (buf : Bytes) :
    NBTParser.readValue (f + 1) 10 buf = (do
      let (cs, b) ← NBTParser.readChildren f buf
      Except.ok (.vCompound cs, b)) := rfl

theorem readValue_intarray (f : Nat) (buf : Bytes) :
    NBTParser.readValue (f + 1) 11 buf = (do
      let (len, b0) ← NBTParser.getI32 buf
      let (xs, b) ← NBTParser.readI32Seq len.toNat b0
      Except.ok (.vNums xs, b)) := rfl

theorem readValue_longarray (f : Nat) (buf : Bytes) :
    NBTParser.readValue (f + 1) 12 buf = (do
      let (len, b0) ← NBTParser.getI32 buf
      let (xs, b) ← NBTParser.readLongSeq len.toNat b0
      Except.ok (.vBigs xs, b)) := rfl

theorem readerOk : ∀ f, ReaderOk f := by
  intro f
  induction f with
  | zero =>
    refine ⟨?_, ?_, ?_, ?_, ?_⟩
    · intro t rest isRoot hwf hsz; have := sizeT_pos t; omega
    · intro it t rest hwf hsz; have := sizeT_pos t; omega
    · intro ty v rest hv h1 h12 hsz; have := sizeV_pos v; omega
    · intro it l rest hwf hsz; have := sizeL_pos l; omega
    · intro cs rest hwf hsz; have := sizeL_pos cs; omega
  | succ f ih =>
    obtain ⟨ihA, ihD, ihP, ihC, ihB⟩ := ih
    refine ⟨?_, ?_, ?_, ?_, ?_⟩
    · -- named tags (root or Compound child)
      intro t rest isRoot hwf hsz
      cases t with
      | mk ty nm v =>
        simp only [wfTag, Bool.and_eq_true, decide_eq_true_eq] at hwf
        obtain ⟨⟨⟨h1, h12⟩, hnm⟩, hv⟩ := hwf
        cases nm with
        | none => simp [wfName] at hnm
        | some s =>
          simp only [sizeT] at hsz
          rw [writeTag_named ty v isRoot s, writeByte_ofNat ty (by omega)]
          simp only [List.append_assoc, List.cons_append,
            List.singleton_append, NBTParser.readTag, getU8_cons, ok_bind]
          rw [if_neg (by omega : ¬ ty = 0)]
          simp [readString_writeString s _ hnm,
            ihP ty v rest hv h1 h12 (by omega)]
    · -- List elements (forced kind, no header)
      intro it t rest hwf hsz
      cases t with
      | mk ty nm v =>
        simp only [wfItem, Bool.and_eq_true, decide_eq_true_eq,
          Option.isNone_iff_eq_none] at hwf
        obtain ⟨⟨⟨⟨hnone, hty⟩, h1⟩, h12⟩, hv⟩ := hwf
        subst hnone
        subst hty
        simp only [sizeT] at hsz
        rw [writeTag_item]
        simp only [NBTParser.readTag, ok_bind]
        rw [if_neg (by omega : ¬ ty = 0)]
        simp [ihP ty v rest hv h1 h12 (by omega)]
    · -- payloads
      intro ty v rest hv h1 h12 hsz
      interval_cases ty
      · -- 1 = Byte
        cases v <;> try exact absurd hv (by exact Bool.noConfusion)
        rename_i i
        have hv' : decide (-128 ≤ i ∧ i < 128) = true := hv
        rw [decide_eq_true_eq] at hv'
        rw [writeValue_byte, readValue_byte,
          getI8_writeByte i rest hv'.1 hv'.2]
        rfl
      · -- 2 = Short
        cases v <;> try exact absurd hv (by exact Bool.noConfusion)
        rename_i i
        have hv' : decide (-32768 ≤ i ∧ i < 32768) = true := hv
        rw [decide_eq_true_eq] at hv'
        rw [writeValue_short, readValue_short,
          getI16_writeShort i rest hv'.1 hv'.2]
        rfl
      · -- 3 = Int
        cases v <;> try exact absurd hv (by exact Bool.noConfusion)
        rename_i i
        have hv' : decide (-2147483648 ≤ i ∧ i < 2147483648) = true := hv
        rw [decide_eq_true_eq] at hv'
        rw [writeValue_int, readValue_int,
          getI32_writeInt_exact i rest hv'.1 hv'.2]
        rfl
      · -- 4 = Long
        cases v <;> try exact absurd hv (by exact Bool.noConfusion)
        rename_i i
        have hv' : decide (-9223372036854775808 ≤ i ∧
            i < 9223372036854775808) = true := hv
        rw [decide_eq_true_eq] at hv'
        rw [writeValue_long, readValue_long,
          parseLong_writeLong i rest hv'.1 hv'.2]
        rfl
      · -- 5 = Float
        cases v <;> try exact absurd hv (by exact Bool.noConfusion)
        rename_i b
        have hv' : decide (b < 4294967296) = true := hv
        rw [decide_eq_true_eq] at hv'
        rw [writeValue_float, readValue_float, getU32_writeFloat b rest hv']
        rfl
      · -- 6 = Double
        cases v <;> try exact absurd hv (by exact Bool.noConfusion)
        rename_i b
        have hv' : decide (b < 18446744073709551616) = true := hv
        rw [decide_eq_true_eq] at hv'
        rw [writeValue_double, readValue_double, getU64_writeDouble b rest hv']
        rfl
      · -- 7 = ByteArray
        cases v <;> try exact absurd hv (by exact Bool.noConfusion)
        rename_i xs
        have hv' : (decide (xs.length < 2147483648) &&
            xs.all (fun x => decide (-128 ≤ x ∧ x < 128))) = true := hv
        rw [Bool.and_eq_true, decide_eq_true_eq] at hv'
        obtain ⟨hlen, hall⟩ := hv'
        rw [writeValue_bytearray, readValue_bytearray, List.append_assoc,
          getI32_writeInt_exact (xs.length : Int) _ (by omega) (by omega)]
        simp only [ok_bind, readI8Slice_writeByteSeq xs rest hall]
      · -- 8 = String
        cases v <;> try exact absurd hv (by exact Bool.noConfusion)
        rename_i s
        have hv' : wfName (some s) = true := hv
        rw [writeValue_string, readValue_string,
          readString_writeString s _ hv']
        rfl
      · -- 9 = List
        cases v <;> try exact absurd hv (by exact Bool.noConfusion)
        rename_i it l
        have hv' : (decide (it < 256) && decide (l.length < 2147483648) &&
            wfItems it l) = true := hv
        simp only [Bool.and_eq_true, decide_eq_true_eq] at hv'
        obtain ⟨⟨hit, hlen⟩, hitems⟩ := hv'
        have hszl : sizeL l ≤ f := by
          simp only [sizeV] at hsz; omega
        rw [writeValue_list, readValue_list]
        simp only [List.append_assoc]
        rw [writeByte_ofNat it (by omega)]
        simp only [List.singleton_append, getU8_cons, ok_bind]
        rw [getI32_writeInt_exact (l.length : Int) _ (by omega) (by omega)]
        simp only [ok_bind]
        have htn : ((l.length : Int)).toNat = l.length := by omega
        rw [htn, ihC it l rest hitems hszl]
        rfl
      · -- 10 = Compound
        cases v <;> try exact absurd hv (by exact Bool.noConfusion)
        rename_i cs
        have hcs : wfChildren cs = true := hv
        have hszc : sizeL cs ≤ f := by
          simp only [sizeV] at hsz; omega
        rw [writeValue_compound, writeByte_zero, readValue_compound]
        simp only [List.append_assoc, List.singleton_append]
        rw [ihB cs rest hcs hszc]
        rfl
      · -- 11 = IntArray
        cases v <;> try exact absurd hv (by exact Bool.noConfusion)
        rename_i xs
        have hv' : (decide (xs.length < 2147483648) &&
            xs.all (fun x =>
              decide (-2147483648 ≤ x ∧ x < 2147483648))) = true := hv
        rw [Bool.and_eq_true, decide_eq_true_eq] at hv'
        obtain ⟨hlen, hall⟩ := hv'
        have htn : ((xs.length : Int)).toNat = xs.length := by omega
        rw [writeValue_intarray, readValue_intarray, List.append_assoc,
          getI32_writeInt_exact (xs.length : Int) _ (by omega) (by omega)]
        simp only [ok_bind, htn, readI32Seq_writeIntSeq xs rest hall]
      · -- 12 = LongArray
        cases v <;> try exact absurd hv (by exact Bool.noConfusion)
        rename_i xs
        have hv' : (decide (xs.length < 2147483648) &&
            xs.all (fun x => decide (-9223372036854775808 ≤ x ∧
              x < 9223372036854775808))) = true := hv
        rw [Bool.and_eq_true, decide_eq_true_eq] at hv'
        obtain ⟨hlen, hall⟩ := hv'
        have htn : ((xs.length : Int)).toNat = xs.length := by omega
        rw [writeValue_longarray, readValue_longarray, List.append_assoc,
          getI32_writeInt_exact (xs.length : Int) _ (by omega) (by omega)]
        simp only [ok_bind, htn, readLongSeq_writeLongSeq xs rest hall]
    · -- element sequences
      intro it l rest hwf hsz
      cases l with
      | nil =>
        simp [NBTParser.readItems, NBTWriter.writeItems]
      | cons t ts =>
        simp only [wfItems, Bool.and_eq_true] at hwf
        simp only [sizeL] at hsz
        have h1 := sizeL_pos ts
        simp only [NBTWriter.writeItems, List.append_assoc,
          List.length_cons, NBTParser.readItems,
          ihD it t _ hwf.1 (by omega), ok_bind,
          ihC it ts rest hwf.2 (by omega)]
    · -- child sequences
      intro cs rest hwf hsz
      cases cs with
      | nil =>
        simp [NBTParser.readChildren, NBTWriter.writeChildren,
          NBTParser.getU8]
      | cons t ts =>
        simp only [wfChildren, Bool.and_eq_true] at hwf
        obtain ⟨hwt, hwts⟩ := hwf
        simp only [sizeL] at hsz
        have h1 := sizeL_pos ts
        have h2 := sizeT_pos t
        cases t with
        | mk ty nm v =>
          have hbounds : 1 ≤ ty ∧ ty ≤ 12 ∧ ∃ s, nm = some s := by
            have h := hwt
            simp only [wfTag, Bool.and_eq_true, decide_eq_true_eq] at h
            obtain ⟨⟨⟨hb1, hb2⟩, hb3⟩, hb4⟩ := h
            cases nm with
            | none => simp [wfName] at hb3
            | some s => exact ⟨hb1, hb2, s, rfl⟩
          obtain ⟨hb1, hb2, s, rfl⟩ := hbounds
          simp only [NBTWriter.writeChildren, List.append_assoc,
            NBTParser.readChildren,
            getU8_writeTag_named ty s v _ (by omega), ok_bind]
          rw [if_neg (by omega : ¬ ty = 0)]
          have hA := ihA (.mk ty (some s) v) (NBTWriter.writeChildren ts ++ 0 :: rest) false hwt (by omega)
          simp only [hA, ok_bind, ihB ts rest hwts (by omega)]

mutual
/-- A well-formed named tag's measure is dominated by its encoding length. -/
theorem sizeT_le_write : ∀ (t : NBTTag) (isRoot : Bool), wfTag t = true →
    sizeT t + 2 ≤ 5 * (NBTWriter.writeTag t isRoot false).length
  | .mk ty nm v, isRoot, h => by
    simp only [wfTag, Bool.and_eq_true, decide_eq_true_eq] at h
    obtain ⟨⟨⟨h1, h12⟩, hnm⟩, hv⟩ := h
    cases nm with
    | none => simp [wfName] at hnm
    | some s =>
      have hV := sizeV_le_write ty v h1 h12 hv
      rw [writeTag_named]
      have hb : (NBTWriter.writeByte (ty : Int)).length = 1 := rfl
      simp only [List.length_append, sizeT, hb]
      omega

/-- A well-formed List element's measure is dominated by its encoding
length (header skipped). -/
theorem sizeT_le_write_item : ∀ (it : Nat) (t : NBTTag), wfItem it t = true →
    sizeT t + 2 ≤ 5 * (NBTWriter.writeTag t false true).length
  | it, .mk ty nm v, h => by
    simp only [wfItem, Bool.and_eq_true, decide_eq_true_eq] at h
    obtain ⟨⟨⟨⟨hnone, hty⟩, h1⟩, h12⟩, hv⟩ := h
    have hV := sizeV_le_write ty v h1 h12 hv
    rw [writeTag_item]
    simp only [sizeT]
    omega

/-- A well-formed payload's measure is dominated by its encoding length. -/
theorem sizeV_le_write : ∀ (ty : Nat) (v : NBTValue), 1 ≤ ty → ty ≤ 12 →
    wfValue ty v = true → sizeV v + 3 ≤ 5 * (NBTWriter.writeValue ty v).length
  | ty, v, h1, h12, hv => by
    interval_cases ty
    · cases v <;> try exact absurd hv (by exact Bool.noConfusion)
      rename_i i
      have : (NBTWriter.writeValue 1 (.vNum i)).length = 1 := rfl
      simp only [sizeV, this]
      omega
    · cases v <;> try exact absurd hv (by exact Bool.noConfusion)
      rename_i i
      have : (NBTWriter.writeValue 2 (.vNum i)).length = 2 := rfl
      simp only [sizeV, this]
      omega
    · cases v <;> try exact absurd hv (by exact Bool.noConfusion)
      rename_i i
      have : (NBTWriter.writeValue 3 (.vNum i)).length = 4 := rfl
      simp only [sizeV, this]
      omega
    · cases v <;> try exact absurd hv (by exact Bool.noConfusion)
      rename_i i
      have : (NBTWriter.writeValue 4 (.vBig i)).length = 8 := rfl
      simp only [sizeV, this]
      omega
    · cases v <;> try exact absurd hv (by exact Bool.noConfusion)
      rename_i b
      have : (NBTWriter.writeValue 5 (.vF32 b)).length = 4 := rfl
      simp only [sizeV, this]
      omega
    · cases v <;> try exact absurd hv (by exact Bool.noConfusion)
      rename_i b
      have : (NBTWriter.writeValue 6 (.vF64 b)).length = 8 := rfl
      simp only [sizeV, this]
      omega
    · cases v <;> try exact absurd hv (by exact Bool.noConfusion)
      rename_i xs
      rw [writeValue_bytearray]
      have hb : (NBTWriter.writeInt (xs.length : Int)).length = 4 := rfl
      simp only [sizeV, List.length_append, hb]
      omega
    · cases v <;> try exact absurd hv (by exact Bool.noConfusion)
      rename_i s
      rw [writeValue_string]
      have hb : (NBTWriter.writeString s).length = 2 + s.length := by
        simp [NBTWriter.writeString, NBTWriter.writeShort]
        omega
      simp only [sizeV, hb]
      omega
    · cases v <;> try exact absurd hv (by exact Bool.noConfusion)
      rename_i it l
      have hv' : (decide (it < 256) && decide (l.length < 2147483648) &&
          wfItems it l) = true := hv
      simp only [Bool.and_eq_true, decide_eq_true_eq] at hv'
      have hL := sizeL_le_writeItems it l hv'.2
      rw [writeValue_list]
      have hb : (NBTWriter.writeByte (it : Int)).length = 1 := rfl
      have hi : (NBTWriter.writeInt (l.length : Int)).length = 4 := rfl
      simp only [sizeV, List.length_append, hb, hi]
      omega
    · cases v <;> try exact absurd hv (by exact Bool.noConfusion)
      rename_i cs
      have hcs : wfChildren cs = true := hv
      have hL := sizeL_le_writeChildren cs hcs
      rw [writeValue_compound]
      have hb : (NBTWriter.writeByte 0).length = 1 := rfl
      simp only [sizeV, List.length_append, hb]
      omega
    · cases v <;> try exact absurd hv (by exact Bool.noConfusion)
      rename_i xs
      rw [writeValue_intarray]
      have hb : (NBTWriter.writeInt (xs.length : Int)).length = 4 := rfl
      simp only [sizeV, List.length_append, hb]
      omega
    · cases v <;> try exact absurd hv (by exact Bool.noConfusion)
      rename_i xs
      rw [writeValue_longarray]
      have hb : (NBTWriter.writeInt (xs.length : Int)).length = 4 := rfl
      simp only [sizeV, List.length_append, hb]
      omega

theorem sizeL_le_writeItems : ∀ (it : Nat) (l : List NBTTag),
    wfItems it l = true → sizeL l ≤ 5 * (NBTWriter.writeItems l).length + 1
  | _, [], _ => by simp [sizeL, NBTWriter.writeItems]
  | it, t :: ts, h => by
    simp only [wfItems, Bool.and_eq_true] at h
    have h1 := sizeT_le_write_item it t h.1
    have h2 := sizeL_le_writeItems it ts h.2
    simp only [sizeL, NBTWriter.writeItems, List.length_append]
    omega

theorem sizeL_le_writeChildren : ∀ (cs : List NBTTag),
    wfChildren cs = true → sizeL cs ≤ 5 * (NBTWriter.writeChildren cs).length + 1
  | [], _ => by simp [sizeL, NBTWriter.writeChildren]
  | t :: ts, h => by
    simp only [wfChildren, Bool.and_eq_true] at h
    have h1 := sizeT_le_write t false h.1
    have h2 := sizeL_le_writeChildren ts h.2
    simp only [sizeL, NBTWriter.writeChildren, List.length_append]
    omega
end

/-- The decoder's fuel budget dominates the measure of any well-formed tree
on its own encoding. -/
theorem sizeT_le_fuelFor (t : NBTTag) (h : wfTag t = true) :
    sizeT t ≤ NBTParser.fuelFor (NBTWriter.write t) := by
  have := sizeT_le_write t true h
  simp only [NBTParser.fuelFor, NBTWriter.write]
  omega

end RoundTrip

/-- C2 — 64-bit fidelity: for every 64-bit signed integer `v`, writing `v`
as a Long (`NBTWriter.writeLong`: two big-endian 32-bit halves, computed by
integer shifts with no floating-point intermediate) and reading it back with
`parseLong` reproduces `v` exactly, whatever bytes follow. -/
theorem C2_long_roundtrip (v : Int) (rest : Bytes)
    (h1 : -9223372036854775808 ≤ v) (h2 : v < 9223372036854775808) :
    NBTParser.parseLong (NBTWriter.writeLong v ++ rest) = .ok (v, rest) :=
  parseLong_writeLong v rest h1 h2

/-- Witness for C2 at the extreme 64-bit values and a value above 2^53. -/
theorem C2_long_roundtrip_witness :
    NBTParser.parseLong (NBTWriter.writeLong (-9223372036854775808) ++ []) =
      .ok (-9223372036854775808, []) ∧
    NBTParser.parseLong (NBTWriter.writeLong 9223372036854775807 ++ []) =
      .ok (9223372036854775807, []) ∧
    NBTParser.parseLong (NBTWriter.writeLong 9007199254740993 ++ []) =
      .ok (9007199254740993, []) := by
  refine ⟨?_, ?_, ?_⟩
  · exact C2_long_roundtrip (-9223372036854775808) [] (by decide) (by decide)
  · exact C2_long_roundtrip 9223372036854775807 [] (by decide) (by decide)
  · exact C2_long_roundtrip 9007199254740993 [] (by decide) (by decide)

/-- C1 — round-trip law: for every well-formed tree representable in the
format (root named, Compound children named, List children unnamed and of
the declared element kind, every scalar in its kind's range — `wfTag`),
parsing the bytes produced by the uncompressed encoder succeeds and yields
a structurally equal tree, with `isCompressed = false`, for every
decompression oracle (a well-formed root's kind byte is 1–12, so the gzip
magic test never fires on encoder output). -/
theorem C1_roundtrip (t : NBTTag) (ungzip : Bytes → Option Bytes)
    (h : wfTag t = true) :
    NBTParser.parse ungzip (NBTWriter.write t) = .ok (t, false) := by
  have hsz : sizeT t ≤ NBTParser.fuelFor (NBTWriter.write t) :=
    sizeT_le_fuelFor t h
  have hread := (readerOk (NBTParser.fuelFor (NBTWriter.write t))).1 t []
    true h hsz
  rw [List.append_nil, ← NBTWriter.write] at hread
  obtain ⟨ty, nm, v⟩ := t
  have hb : 1 ≤ ty ∧ ty ≤ 12 ∧ ∃ s, nm = some s := by
    have h' := h
    simp only [wfTag, Bool.and_eq_true, decide_eq_true_eq] at h'
    obtain ⟨⟨⟨hb1, hb2⟩, hb3⟩, hb4⟩ := h'
    cases nm with
    | none => simp [wfName] at hb3
    | some s => exact ⟨hb1, hb2, s, rfl⟩
  obtain ⟨hb1, hb2, s, rfl⟩ := hb
  have hhead : NBTWriter.write (.mk ty (some s) v) =
      ty :: (NBTWriter.writeString s ++ NBTWriter.writeValue ty v) := by
    rw [NBTWriter.write, writeTag_named, writeByte_ofNat ty (by omega)]
    simp
  rw [NBTParser.parse, hhead]
  rw [if_neg (by
    simp only [List.getElem?_cons_zero, Option.some.injEq, not_and]
    intro h31
    omega)]
  rw [← hhead, hread]

/-- Witness for C1 at the spec's concrete scenario: a Compound root named
`""` holding one Int child named `"XpLevel"` with value 5. -/
theorem C1_roundtrip_witness :
    wfTag (.mk 10 (some []) (.vCompound
      [.mk 3 (some [88, 112, 76, 101, 118, 101, 108]) (.vNum 5)])) = true ∧
    NBTParser.parse (fun _ => none)
      (NBTWriter.write (.mk 10 (some []) (.vCompound
        [.mk 3 (some [88, 112, 76, 101, 118, 101, 108]) (.vNum 5)]))) =
      .ok (.mk 10 (some []) (.vCompound
        [.mk 3 (some [88, 112, 76, 101, 118, 101, 108]) (.vNum 5)]), false) :=
  ⟨by decide, C1_roundtrip _ _ (by decide)⟩

section Truncation

theorem bind_eq_ok {ε α β : Type} {x : Except ε α} {g : α → Except ε β}
    {b : β} (h : x >>= g = .ok b) : ∃ a, x = .ok a ∧ g a = .ok b := by
  cases x with
  | error e => exact absurd h (by simp [error_bind])
  | ok a => exact ⟨a, rfl, h⟩

theorem consumes_getU8 : Consumes NBTParser.getU8 := by
  intro buf a r h
  cases buf with
  | nil => exact absurd h (by simp [NBTParser.getU8])
  | cons b rest =>
    simp only [NBTParser.getU8, Except.ok.injEq, Prod.mk.injEq] at h
    obtain ⟨rfl, rfl⟩ := h
    exact ⟨[b], rfl, fun r' => rfl⟩

theorem consumes_getU16 : Consumes NBTParser.getU16 := by
  intro buf a r h
  match buf with
  | [] => exact absurd h (by simp [NBTParser.getU16])
  | [b0] => exact absurd h (by simp [NBTParser.getU16])
  | b0 :: b1 :: rest =>
    simp only [NBTParser.getU16, Except.ok.injEq, Prod.mk.injEq] at h
    obtain ⟨rfl, rfl⟩ := h
    exact ⟨[b0, b1], rfl, fun r' => rfl⟩

theorem consumes_getU32 : Consumes NBTParser.getU32 := by
  intro buf a r h
  match buf with
  | [] => exact absurd h (by simp [NBTParser.getU32])
  | [b0] => exact absurd h (by simp [NBTParser.getU32])
  | [b0, b1] => exact absurd h (by simp [NBTParser.getU32])
  | [b0, b1, b2] => exact absurd h (by simp [NBTParser.getU32])
  | b0 :: b1 :: b2 :: b3 :: rest =>
    simp only [NBTParser.getU32, Except.ok.injEq, Prod.mk.injEq] at h
    obtain ⟨rfl, rfl⟩ := h
    exact ⟨[b0, b1, b2, b3], rfl, fun r' => rfl⟩

theorem consumes_getI8 : Consumes NBTParser.getI8 := by
  intro buf a r h
  cases buf with
  | nil => exact absurd h (by simp [NBTParser.getI8])
  | cons b rest =>
    simp only [NBTParser.getI8, Except.ok.injEq, Prod.mk.injEq] at h
    obtain ⟨rfl, rfl⟩ := h
    exact ⟨[b], rfl, fun r' => rfl⟩

/-- Success through one bind, in the `Consumes` sense, for a reader that is
a primitive read followed by a pure transformation of the value. -/
theorem consumes_map {α β : Type} {g : Bytes → Except String (α × Bytes)}
    (hg : Consumes g) (h : α → β) :
    Consumes (fun buf => do
      let (a, b) ← g buf
      Except.ok (h a, b)) := by
  intro buf a r hok
  obtain ⟨⟨x, b1⟩, hx, hpure⟩ := bind_eq_ok hok
  simp only [Except.ok.injEq, Prod.mk.injEq] at hpure
  obtain ⟨rfl, rfl⟩ := hpure
  obtain ⟨u, rfl, hu⟩ := hg _ _ _ hx
  exact ⟨u, rfl, fun r' => by simp [hu r', ok_bind]⟩

theorem consumes_getI32 : Consumes NBTParser.getI32 := by
  intro buf a r h
  simp only [NBTParser.getI32] at h
  obtain ⟨⟨u, b1⟩, hu, h⟩ := bind_eq_ok h
  simp only [Except.ok.injEq, Prod.mk.injEq] at h
  obtain ⟨rfl, rfl⟩ := h
  obtain ⟨w, rfl, hw⟩ := consumes_getU32 _ _ _ hu
  refine ⟨w, rfl, fun r' => ?_⟩
  simp [NBTParser.getI32, hw r', ok_bind]

theorem consumes_getI16 : Consumes NBTParser.getI16 := by
  intro buf a r h
  simp only [NBTParser.getI16] at h
  obtain ⟨⟨u, b1⟩, hu, h⟩ := bind_eq_ok h
  simp only [Except.ok.injEq, Prod.mk.injEq] at h
  obtain ⟨rfl, rfl⟩ := h
  obtain ⟨w, rfl, hw⟩ := consumes_getU16 _ _ _ hu
  refine ⟨w, rfl, fun r' => ?_⟩
  simp [NBTParser.getI16, hw r', ok_bind]

/-- Sequencing two consuming reads (the second may depend on the first
value) consumes the concatenation. -/
theorem consumes_bind2 {α β γ : Type} {g1 : Bytes → Except String (α × Bytes)}
    {g2 : α → Bytes → Except String (β × Bytes)} (h1 : Consumes g1)
    (h2 : ∀ a, Consumes (g2 a)) (comb : α → β → γ) :
    Consumes (fun buf => do
      let (a, b1) ← g1 buf
      let (x, b2) ← g2 a b1
      Except.ok (comb a x, b2)) := by
  intro buf c r hok
  obtain ⟨⟨x, b1⟩, hx, hok⟩ := bind_eq_ok hok
  obtain ⟨⟨y, b2⟩, hy, hpure⟩ := bind_eq_ok hok
  simp only [Except.ok.injEq, Prod.mk.injEq] at hpure
  obtain ⟨rfl, rfl⟩ := hpure
  obtain ⟨u1, rfl, hu1⟩ := h1 _ _ _ hx
  obtain ⟨u2, rfl, hu2⟩ := h2 x _ _ _ hy
  refine ⟨u1 ++ u2, by simp, fun r' => ?_⟩
  have := hu1 (u2 ++ r')
  simp only [List.append_assoc] at this ⊢
  simp [this, ok_bind, hu2 r']

theorem consumes_getU64 : Consumes NBTParser.getU64 := by
  intro buf a r h
  simp only [NBTParser.getU64] at h
  obtain ⟨⟨x, b1⟩, hx, h⟩ := bind_eq_ok h
  obtain ⟨⟨y, b2⟩, hy, h⟩ := bind_eq_ok h
  simp only [Except.ok.injEq, Prod.mk.injEq] at h
  obtain ⟨rfl, rfl⟩ := h
  obtain ⟨u1, rfl, hu1⟩ := consumes_getU32 _ _ _ hx
  obtain ⟨u2, rfl, hu2⟩ := consumes_getU32 _ _ _ hy
  refine ⟨u1 ++ u2, by simp, fun r' => ?_⟩
  have hg := hu1 (u2 ++ r')
  simp only [NBTParser.getU64, List.append_assoc] at hg ⊢
  rw [hg]
  simp [ok_bind, hu2 r']

theorem consumes_parseLong : Consumes NBTParser.parseLong := by
  intro buf a r h
  simp only [NBTParser.parseLong] at h
  obtain ⟨⟨x, b1⟩, hx, h⟩ := bind_eq_ok h
  obtain ⟨⟨y, b2⟩, hy, h⟩ := bind_eq_ok h
  simp only [Except.ok.injEq, Prod.mk.injEq] at h
  obtain ⟨rfl, rfl⟩ := h
  obtain ⟨u1, rfl, hu1⟩ := consumes_getI32 _ _ _ hx
  obtain ⟨u2, rfl, hu2⟩ := consumes_getI32 _ _ _ hy
  refine ⟨u1 ++ u2, by simp, fun r' => ?_⟩
  have hg := hu1 (u2 ++ r')
  simp only [NBTParser.parseLong, List.append_assoc] at hg ⊢
  rw [hg]
  simp [ok_bind, hu2 r']

theorem consumes_readString : Consumes NBTParser.readString := by
  intro buf a r h
  obtain ⟨⟨len, b1⟩, hlen, h⟩ := bind_eq_ok h
  dsimp only at h
  by_cases hle : len ≤ b1.length
  · rw [if_pos hle] at h
    simp only [Except.ok.injEq, Prod.mk.injEq] at h
    obtain ⟨rfl, rfl⟩ := h
    obtain ⟨u1, rfl, hu1⟩ := consumes_getU16 _ _ _ hlen
    have htk : (b1.take len).length = len := by
      simp [List.length_take]
      omega
    refine ⟨u1 ++ b1.take len, by simp [List.take_append_drop], fun r' => ?_⟩
    have hg := hu1 (b1.take len ++ r')
    simp only [NBTParser.readString, List.append_assoc] at hg ⊢
    rw [hg]
    simp only [ok_bind]
    rw [if_pos (by simp only [List.length_append, htk]; omega)]
    set t := List.take len b1 with hT
    rw [← htk, List.take_left, List.drop_left]
  · rw [if_neg hle] at h
    exact absurd h (by simp)

theorem consumes_readI8Slice (len : Int) :
    Consumes (NBTParser.readI8Slice len) := by
  intro buf a r h
  simp only [NBTParser.readI8Slice] at h
  by_cases hneg : len < 0
  · rw [if_pos hneg] at h
    exact absurd h (by simp)
  · rw [if_neg hneg] at h
    by_cases hle : len.toNat ≤ buf.length
    · rw [if_pos hle] at h
      simp only [Except.ok.injEq, Prod.mk.injEq] at h
      obtain ⟨rfl, rfl⟩ := h
      have htk : (buf.take len.toNat).length = len.toNat := by
        simp [List.length_take]
        omega
      refine ⟨buf.take len.toNat, by simp [List.take_append_drop],
        fun r' => ?_⟩
      simp only [NBTParser.readI8Slice, if_neg hneg]
      rw [if_pos (by simp only [List.length_append, htk]; omega)]
      set t := List.take len.toNat buf with hT
      rw [← htk, List.take_left, List.drop_left]
    · rw [if_neg hle] at h
      exact absurd h (by simp)

theorem consumes_readI32Seq (n : Nat) :
    Consumes (NBTParser.readI32Seq n) := by
  induction n with
  | zero =>
    intro buf a r h
    simp only [NBTParser.readI32Seq, Except.ok.injEq, Prod.mk.injEq] at h
    obtain ⟨rfl, rfl⟩ := h
    exact ⟨[], rfl, fun r' => rfl⟩
  | succ n ih =>
    intro buf a r h
    simp only [NBTParser.readI32Seq] at h
    obtain ⟨⟨x, b1⟩, hx, h⟩ := bind_eq_ok h
    obtain ⟨⟨xs, b2⟩, hxs, h⟩ := bind_eq_ok h
    simp only [Except.ok.injEq, Prod.mk.injEq] at h
    obtain ⟨rfl, rfl⟩ := h
    obtain ⟨u1, rfl, hu1⟩ := consumes_getI32 _ _ _ hx
    obtain ⟨u2, rfl, hu2⟩ := ih _ _ _ hxs
    refine ⟨u1 ++ u2, by simp, fun r' => ?_⟩
    have hg := hu1 (u2 ++ r')
    simp only [NBTParser.readI32Seq, List.append_assoc] at hg ⊢
    rw [hg]
    simp [ok_bind, hu2 r']

theorem consumes_readLongSeq (n : Nat) :
    Consumes (NBTParser.readLongSeq n) := by
  induction n with
  | zero =>
    intro buf a r h
    simp only [NBTParser.readLongSeq, Except.ok.injEq, Prod.mk.injEq] at h
    obtain ⟨rfl, rfl⟩ := h
    exact ⟨[], rfl, fun r' => rfl⟩
  | succ n ih =>
    intro buf a r h
    simp only [NBTParser.readLongSeq] at h
    obtain ⟨⟨x, b1⟩, hx, h⟩ := bind_eq_ok h
    obtain ⟨⟨xs, b2⟩, hxs, h⟩ := bind_eq_ok h
    simp only [Except.ok.injEq, Prod.mk.injEq] at h
    obtain ⟨rfl, rfl⟩ := h
    obtain ⟨u1, rfl, hu1⟩ := consumes_parseLong _ _ _ hx
    obtain ⟨u2, rfl, hu2⟩ := ih _ _ _ hxs
    refine ⟨u1 ++ u2, by simp, fun r' => ?_⟩
    have hg := hu1 (u2 ++ r')
    simp only [NBTParser.readLongSeq, List.append_assoc] at hg ⊢
    rw [hg]
    simp [ok_bind, hu2 r']

end Truncation

/-!
Definitional shapes of one reader step (the name-read condition reduces
once `isRoot` and the forced kind are fixed).
-/

theorem readTag_eq_unforced (f : Nat) (buf : Bytes) (isRoot : Bool) :
    NBTParser.readTag (f + 1) buf isRoot none none = (do
      let (ty, b1) ← NBTParser.getU8 buf
      if ty = 0 then Except.ok (.mk 0 none .vNull, b1)
      else do
        let (s, b2) ← NBTParser.readString b1
        let (v, b3) ← NBTParser.readValue f ty b2
        Except.ok (.mk ty (some s) v, b3)) := by
  cases isRoot <;> rfl

theorem readTag_eq_forced_item (f : Nat) (buf : Bytes) (t0 : Nat) :
    NBTParser.readTag (f + 1) buf false (some t0) none =
      (if t0 = 0 then Except.ok (.mk 0 none .vNull, buf)
       else do
        let (v, b) ← NBTParser.readValue f t0 buf
        Except.ok (.mk t0 none v, b)) := rfl

theorem readTag_eq_forced_root (f : Nat) (buf : Bytes) (t0 : Nat) :
    NBTParser.readTag (f + 1) buf true (some t0) none =
      (if t0 = 0 then Except.ok (.mk 0 none .vNull, buf)
       else do
        let (s, b2) ← NBTParser.readString buf
        let (v, b3) ← NBTParser.readValue f t0 b2
        Except.ok (.mk t0 (some s) v, b3)) := rfl

theorem readValue_end (f : Nat) (buf : Bytes) :
    NBTParser.readValue (f + 1) 0 buf = .ok (.vUndef, buf) := rfl

theorem readValue_ge13 (f : Nat) (ty : Nat) (buf : Bytes) (h : 13 ≤ ty) :
    NBTParser.readValue (f + 1) ty buf = .ok (.vUndef, buf) := by
  obtain ⟨n, rfl⟩ : ∃ n, ty = n + 13 := ⟨ty - 13, by omega⟩
  rfl

theorem readItems_zero (f : Nat) (it : Nat) (buf : Bytes) :
    NBTParser.readItems (f + 1) 0 it buf = .ok ([], buf) := rfl

theorem readItems_succ (f : Nat) (n : Nat) (it : Nat) (buf : Bytes) :
    NBTParser.readItems (f + 1) (n + 1) it buf = (do
      let (t, b1) ← NBTParser.readTag f buf false (some it) none
      let (ts, b2) ← NBTParser.readItems f n it b1
      Except.ok (t :: ts, b2)) := rfl

theorem readChildren_eq (f : Nat) (buf : Bytes) :
    NBTParser.readChildren (f + 1) buf = (do
      let (next, _) ← NBTParser.getU8 buf
      if next = 0 then Except.ok ([], buf.drop 1)
      else do
        let (c, b1) ← NBTParser.readTag f buf false none none
        let (cs, b2) ← NBTParser.readChildren f b1
        Except.ok (c :: cs, b2)) := rfl

/-- A reader that returns `(b, r')` on `u ++ r'` for every `r'` consumed
exactly the one byte `b`. -/
theorem consumes_getU8_singleton {u : Bytes} {b : Nat}
    (hu : ∀ r', NBTParser.getU8 (u ++ r') = .ok (b, r')) : u = [b] := by
  cases u with
  | nil => exact absurd (hu []) (by simp [NBTParser.getU8])
  | cons a u' =>
    have h := hu []
    simp only [List.cons_append, NBTParser.getU8, Except.ok.injEq,
      Prod.mk.injEq] at h
    obtain ⟨rfl, h2⟩ := h
    simp [List.append_eq_nil] at h2
    simp [h2]

theorem readerExt : ∀ f, ReaderExt f := by
  intro f
  induction f with
  | zero =>
    refine ⟨?_, ?_, ?_, ?_⟩
    · intro buf isRoot forced t r h
      exact absurd h (by simp [NBTParser.readTag])
    · intro ty buf v r h
      exact absurd h (by simp [NBTParser.readValue])
    · intro n it buf l r h
      exact absurd h (by simp [NBTParser.readItems])
    · intro buf cs r h
      exact absurd h (by simp [NBTParser.readChildren])
  | succ f ih =>
    obtain ⟨ihT, ihV, ihI, ihC⟩ := ih
    refine ⟨?_, ?_, ?_, ?_⟩
    · -- readTag
      intro buf isRoot forced t r h
      cases forced with
      | none =>
        rw [readTag_eq_unforced] at h
        cases hg : NBTParser.getU8 buf with
        | error e => rw [hg] at h; exact absurd h (by simp [error_bind])
        | ok p =>
          obtain ⟨ty, b1⟩ := p
          rw [hg] at h
          simp only [ok_bind] at h
          by_cases h0 : ty = 0
          · subst h0
            rw [if_pos rfl] at h
            simp only [Except.ok.injEq, Prod.mk.injEq] at h
            obtain ⟨rfl, rfl⟩ := h
            obtain ⟨u, rfl, hu⟩ := consumes_getU8 _ _ _ hg
            refine ⟨u, rfl, fun f' hf' r' => ?_⟩
            cases f' with
            | zero => omega
            | succ f'' =>
              rw [readTag_eq_unforced, hu r']
              simp [ok_bind]
          · rw [if_neg h0] at h
            cases hs : NBTParser.readString b1 with
            | error e => rw [hs] at h; exact absurd h (by simp [error_bind])
            | ok q =>
              obtain ⟨s, b2⟩ := q
              rw [hs] at h
              simp only [ok_bind] at h
              cases hv : NBTParser.readValue f ty b2 with
              | error e => rw [hv] at h; exact absurd h (by simp [error_bind])
              | ok w =>
                obtain ⟨v, b3⟩ := w
                rw [hv] at h
                simp only [ok_bind, Except.ok.injEq, Prod.mk.injEq] at h
                obtain ⟨rfl, rfl⟩ := h
                obtain ⟨u3, rfl, hu3⟩ := ihV ty b2 v b3 hv
                obtain ⟨u2, rfl, hu2⟩ := consumes_readString _ _ _ hs
                obtain ⟨u1, rfl, hu1⟩ := consumes_getU8 _ _ _ hg
                refine ⟨u1 ++ (u2 ++ u3), by simp, fun f' hf' r' => ?_⟩
                cases f' with
                | zero => omega
                | succ f'' =>
                  rw [readTag_eq_unforced]
                  simp only [List.append_assoc]
                  rw [hu1 (u2 ++ (u3 ++ r'))]
                  simp only [ok_bind]
                  rw [if_neg h0, hu2 (u3 ++ r')]
                  simp only [ok_bind]
                  rw [hu3 f'' (by omega) r']
                  simp only [ok_bind]
      | some t0 =>
        cases isRoot with
        | false =>
          rw [readTag_eq_forced_item] at h
          by_cases h0 : t0 = 0
          · subst h0
            rw [if_pos rfl] at h
            simp only [Except.ok.injEq, Prod.mk.injEq] at h
            obtain ⟨rfl, rfl⟩ := h
            refine ⟨[], by simp, fun f' hf' r' => ?_⟩
            cases f' with
            | zero => omega
            | succ f'' => rw [readTag_eq_forced_item]; simp
          · rw [if_neg h0] at h
            cases hv : NBTParser.readValue f t0 buf with
            | error e => rw [hv] at h; exact absurd h (by simp [error_bind])
            | ok w =>
              obtain ⟨v, b3⟩ := w
              rw [hv] at h
              simp only [ok_bind, Except.ok.injEq, Prod.mk.injEq] at h
              obtain ⟨rfl, rfl⟩ := h
              obtain ⟨u, rfl, hu⟩ := ihV t0 buf v b3 hv
              refine ⟨u, rfl, fun f' hf' r' => ?_⟩
              cases f' with
              | zero => omega
              | succ f'' =>
                rw [readTag_eq_forced_item, if_neg h0,
                  hu f'' (by omega) r']
                simp [ok_bind]
        | true =>
          rw [readTag_eq_forced_root] at h
          by_cases h0 : t0 = 0
          · subst h0
            rw [if_pos rfl] at h
            simp only [Except.ok.injEq, Prod.mk.injEq] at h
            obtain ⟨rfl, rfl⟩ := h
            refine ⟨[], by simp, fun f' hf' r' => ?_⟩
            cases f' with
            | zero => omega
            | succ f'' => rw [readTag_eq_forced_root]; simp
          · rw [if_neg h0] at h
            cases hs : NBTParser.readString buf with
            | error e => rw [hs] at h; exact absurd h (by simp [error_bind])
            | ok q =>
              obtain ⟨s, b2⟩ := q
              rw [hs] at h
              simp only [ok_bind] at h
              cases hv : NBTParser.readValue f t0 b2 with
              | error e => rw [hv] at h; exact absurd h (by simp [error_bind])
              | ok w =>
                obtain ⟨v, b3⟩ := w
                rw [hv] at h
                simp only [ok_bind, Except.ok.injEq, Prod.mk.injEq] at h
                obtain ⟨rfl, rfl⟩ := h
                obtain ⟨u3, rfl, hu3⟩ := ihV t0 b2 v b3 hv
                obtain ⟨u2, rfl, hu2⟩ := consumes_readString _ _ _ hs
                refine ⟨u2 ++ u3, by simp, fun f' hf' r' => ?_⟩
                cases f' with
                | zero => omega
                | succ f'' =>
                  rw [readTag_eq_forced_root, if_neg h0]
                  simp only [List.append_assoc]
                  rw [hu2 (u3 ++ r')]
                  simp only [ok_bind]
                  rw [hu3 f'' (by omega) r']
                  simp only [ok_bind]
    · -- readValue
      intro ty buf v r h
      rcases Nat.lt_or_ge ty 13 with h13 | h13
      · interval_cases ty
        · rw [readValue_end] at h
          simp only [Except.ok.injEq, Prod.mk.injEq] at h
          obtain ⟨rfl, rfl⟩ := h
          refine ⟨[], by simp, fun f' hf' r' => ?_⟩
          cases f' with
          | zero => omega
          | succ f'' => rw [readValue_end]; simp
        · rw [readValue_byte] at h
          obtain ⟨u, rfl, hu⟩ :=
            consumes_map consumes_getI8 NBTValue.vNum _ _ _ h
          refine ⟨u, rfl, fun f' hf' r' => ?_⟩
          cases f' with
          | zero => omega
          | succ f'' => rw [readValue_byte]; exact hu r'
        · rw [readValue_short] at h
          obtain ⟨u, rfl, hu⟩ :=
            consumes_map consumes_getI16 NBTValue.vNum _ _ _ h
          refine ⟨u, rfl, fun f' hf' r' => ?_⟩
          cases f' with
          | zero => omega
          | succ f'' => rw [readValue_short]; exact hu r'
        · rw [readValue_int] at h
          obtain ⟨u, rfl, hu⟩ :=
            consumes_map consumes_getI32 NBTValue.vNum _ _ _ h
          refine ⟨u, rfl, fun f' hf' r' => ?_⟩
          cases f' with
          | zero => omega
          | succ f'' => rw [readValue_int]; exact hu r'
        · rw [readValue_long] at h
          obtain ⟨u, rfl, hu⟩ :=
            consumes_map consumes_parseLong NBTValue.vBig _ _ _ h
          refine ⟨u, rfl, fun f' hf' r' => ?_⟩
          cases f' with
          | zero => omega
          | succ f'' => rw [readValue_long]; exact hu r'
        · rw [readValue_float] at h
          obtain ⟨u, rfl, hu⟩ :=
            consumes_map consumes_getU32 NBTValue.vF32 _ _ _ h
          refine ⟨u, rfl, fun f' hf' r' => ?_⟩
          cases f' with
          | zero => omega
          | succ f'' => rw [readValue_float]; exact hu r'
        · rw [readValue_double] at h
          obtain ⟨u, rfl, hu⟩ :=
            consumes_map consumes_getU64 NBTValue.vF64 _ _ _ h
          refine ⟨u, rfl, fun f' hf' r' => ?_⟩
          cases f' with
          | zero => omega
          | succ f'' => rw [readValue_double]; exact hu r'
        · rw [readValue_bytearray] at h
          obtain ⟨u, rfl, hu⟩ := consumes_bind2 consumes_getI32
            consumes_readI8Slice (fun _ xs => NBTValue.vNums xs) _ _ _ h
          refine ⟨u, rfl, fun f' hf' r' => ?_⟩
          cases f' with
          | zero => omega
          | succ f'' => rw [readValue_bytearray]; exact hu r'
        · rw [readValue_string] at h
          obtain ⟨u, rfl, hu⟩ :=
            consumes_map consumes_readString NBTValue.vStr _ _ _ h
          refine ⟨u, rfl, fun f' hf' r' => ?_⟩
          cases f' with
          | zero => omega
          | succ f'' => rw [readValue_string]; exact hu r'
        · rw [readValue_list] at h
          cases hg : NBTParser.getU8 buf with
          | error e => rw [hg] at h; exact absurd h (by simp [error_bind])
          | ok p =>
            obtain ⟨it, b0⟩ := p
            rw [hg] at h
            simp only [ok_bind] at h
            cases hc : NBTParser.getI32 b0 with
            | error e => rw [hc] at h; exact absurd h (by simp [error_bind])
            | ok q =>
              obtain ⟨cnt, b1⟩ := q
              rw [hc] at h
              simp only [ok_bind] at h
              cases hi : NBTParser.readItems f cnt.toNat it b1 with
              | error e =>
                rw [hi] at h; exact absurd h (by simp [error_bind])
              | ok w =>
                obtain ⟨l, b⟩ := w
                rw [hi] at h
                simp only [ok_bind, Except.ok.injEq, Prod.mk.injEq] at h
                obtain ⟨rfl, rfl⟩ := h
                obtain ⟨u3, rfl, hu3⟩ := ihI cnt.toNat it b1 l b hi
                obtain ⟨u2, rfl, hu2⟩ := consumes_getI32 _ _ _ hc
                obtain ⟨u1, rfl, hu1⟩ := consumes_getU8 _ _ _ hg
                refine ⟨u1 ++ (u2 ++ u3), by simp, fun f' hf' r' => ?_⟩
                cases f' with
                | zero => omega
                | succ f'' =>
                  rw [readValue_list]
                  simp only [List.append_assoc]
                  rw [hu1 (u2 ++ (u3 ++ r'))]
                  simp only [ok_bind]
                  rw [hu2 (u3 ++ r')]
                  simp only [ok_bind]
                  rw [hu3 f'' (by omega) r']
                  simp only [ok_bind]
        · rw [readValue_compound] at h
          cases hc : NBTParser.readChildren f buf with
          | error e => rw [hc] at h; exact absurd h (by simp [error_bind])
          | ok w =>
            obtain ⟨cs, b⟩ := w
            rw [hc] at h
            simp only [ok_bind, Except.ok.injEq, Prod.mk.injEq] at h
            obtain ⟨rfl, rfl⟩ := h
            obtain ⟨u, rfl, hu⟩ := ihC buf cs b hc
            refine ⟨u, rfl, fun f' hf' r' => ?_⟩
            cases f' with
            | zero => omega
            | succ f'' =>
              rw [readValue_compound, hu f'' (by omega) r']
              simp [ok_bind]
        · rw [readValue_intarray] at h
          obtain ⟨u, rfl, hu⟩ := consumes_bind2 consumes_getI32
            (fun a => consumes_readI32Seq a.toNat)
            (fun _ xs => NBTValue.vNums xs) _ _ _ h
          refine ⟨u, rfl, fun f' hf' r' => ?_⟩
          cases f' with
          | zero => omega
          | succ f'' => rw [readValue_intarray]; exact hu r'
        · rw [readValue_longarray] at h
          obtain ⟨u, rfl, hu⟩ := consumes_bind2 consumes_getI32
            (fun a => consumes_readLongSeq a.toNat)
            (fun _ xs => NBTValue.vBigs xs) _ _ _ h
          refine ⟨u, rfl, fun f' hf' r' => ?_⟩
          cases f' with
          | zero => omega
          | succ f'' => rw [readValue_longarray]; exact hu r'
      · rw [readValue_ge13 f ty buf h13] at h
        simp only [Except.ok.injEq, Prod.mk.injEq] at h
        obtain ⟨rfl, rfl⟩ := h
        refine ⟨[], by simp, fun f' hf' r' => ?_⟩
        cases f' with
        | zero => omega
        | succ f'' => rw [readValue_ge13 _ _ _ h13]; simp
    · -- readItems
      intro n it buf l r h
      cases n with
      | zero =>
        rw [readItems_zero] at h
        simp only [Except.ok.injEq, Prod.mk.injEq] at h
        obtain ⟨rfl, rfl⟩ := h
        refine ⟨[], by simp, fun f' hf' r' => ?_⟩
        cases f' with
        | zero => omega
        | succ f'' => rw [readItems_zero]; simp
      | succ n =>
        rw [readItems_succ] at h
        cases ht : NBTParser.readTag f buf false (some it) none with
        | error e => rw [ht] at h; exact absurd h (by simp [error_bind])
        | ok p =>
          obtain ⟨t1, b1⟩ := p
          rw [ht] at h
          simp only [ok_bind] at h
          cases hts : NBTParser.readItems f n it b1 with
          | error e => rw [hts] at h; exact absurd h (by simp [error_bind])
          | ok q =>
            obtain ⟨ts, b2⟩ := q
            rw [hts] at h
            simp only [ok_bind, Except.ok.injEq, Prod.mk.injEq] at h
            obtain ⟨rfl, rfl⟩ := h
            obtain ⟨u2, rfl, hu2⟩ := ihI n it b1 ts b2 hts
            obtain ⟨u1, rfl, hu1⟩ := ihT buf false (some it) t1 _ ht
            refine ⟨u1 ++ u2, by simp, fun f' hf' r' => ?_⟩
            cases f' with
            | zero => omega
            | succ f'' =>
              rw [readItems_succ]
              simp only [List.append_assoc]
              rw [hu1 f'' (by omega) (u2 ++ r')]
              simp only [ok_bind]
              rw [hu2 f'' (by omega) r']
              simp only [ok_bind]
    · -- readChildren
      intro buf cs r h
      rw [readChildren_eq] at h
      cases hg : NBTParser.getU8 buf with
      | error e => rw [hg] at h; exact absurd h (by simp [error_bind])
      | ok p =>
        obtain ⟨next, bx⟩ := p
        rw [hg] at h
        simp only [ok_bind] at h
        by_cases h0 : next = 0
        · subst h0
          rw [if_pos rfl] at h
          simp only [Except.ok.injEq, Prod.mk.injEq] at h
          obtain ⟨rfl, rfl⟩ := h
          obtain ⟨u, hbuf, hu⟩ := consumes_getU8 _ _ _ hg
          have hu0 : u = [0] := consumes_getU8_singleton hu
          subst hu0
          refine ⟨[0], by rw [hbuf]; simp, fun f' hf' r' => ?_⟩
          cases f' with
          | zero => omega
          | succ f'' =>
            rw [readChildren_eq, hu r']
            simp [ok_bind]
        · rw [if_neg h0] at h
          cases ht : NBTParser.readTag f buf false none none with
          | error e => rw [ht] at h; exact absurd h (by simp [error_bind])
          | ok p' =>
            obtain ⟨c, b1⟩ := p'
            rw [ht] at h
            simp only [ok_bind] at h
            cases hcs : NBTParser.readChildren f b1 with
            | error e =>
              rw [hcs] at h; exact absurd h (by simp [error_bind])
            | ok q =>
              obtain ⟨cs', b2⟩ := q
              rw [hcs] at h
              simp only [ok_bind, Except.ok.injEq, Prod.mk.injEq] at h
              obtain ⟨rfl, rfl⟩ := h
              obtain ⟨u2, rfl, hu2⟩ := ihC b1 cs' b2 hcs
              obtain ⟨u1, hbuf, hu1⟩ := ihT buf false none c _ ht
              rcases u1 with _ | ⟨a, u1t⟩
              · exfalso
                have hcon := hu1 f (le_refl f) []
                cases f with
                | zero => exact absurd hcon (by simp [NBTParser.readTag])
                | succ g =>
                  rw [readTag_eq_unforced] at hcon
                  exact absurd hcon (by simp [NBTParser.getU8, error_bind])
              · have hbx : buf = next :: bx := by
                  cases buf with
                  | nil => exact absurd hg (by simp [NBTParser.getU8])
                  | cons x xs =>
                    simp only [NBTParser.getU8, Except.ok.injEq,
                      Prod.mk.injEq] at hg
                    rw [hg.1, hg.2]
                have ha : a = next := by
                  rw [hbuf] at hbx
                  simp only [List.cons_append] at hbx
                  exact (List.cons.injEq _ _ _ _ ▸ hbx).1
                subst ha
                refine ⟨(a :: u1t) ++ u2, by rw [hbuf]; simp,
                  fun f' hf' r' => ?_⟩
                cases f' with
                | zero => omega
                | succ f'' =>
                  rw [readChildren_eq]
                  simp only [List.append_assoc, List.cons_append]
                  rw [show NBTParser.getU8 (a :: (u1t ++ (u2 ++ r'))) =
                    .ok (a, u1t ++ (u2 ++ r')) from rfl]
                  simp only [ok_bind]
                  rw [if_neg h0]
                  have h1 := hu1 f'' (by omega) (u2 ++ r')
                  simp only [List.cons_append] at h1
                  rw [h1]
                  simp only [ok_bind]
                  rw [hu2 f'' (by omega) r']
                  simp only [ok_bind]

theorem wfTag_shape (ty : Nat) (nm : Option Bytes) (v : NBTValue)
    (h : wfTag (.mk ty nm v) = true) :
    1 ≤ ty ∧ ty ≤ 12 ∧ ∃ s, nm = some s := by
  simp only [wfTag, Bool.and_eq_true, decide_eq_true_eq] at h
  obtain ⟨⟨⟨h1, h12⟩, hnm⟩, hv⟩ := h
  cases nm with
  | none => simp [wfName] at hnm
  | some s => exact ⟨h1, h12, s, rfl⟩

/-- The head of an encoded well-formed document is its root kind byte. -/
theorem write_head (ty : Nat) (s : Bytes) (v : NBTValue) (h : ty < 256) :
    NBTWriter.write (.mk ty (some s) v) =
      ty :: (NBTWriter.writeString s ++ NBTWriter.writeValue ty v) := by
  rw [NBTWriter.write, writeTag_named, writeByte_ofNat ty h]
  simp

/-- Truncating the encoding of any well-formed tree anywhere strictly
before its end makes the whole decode fail: a prefix that ends mid-read
can neither complete (the missing bytes are required) nor re-parse as a
different document (the reader is deterministic on the consumed prefix). -/
theorem decode_truncation (t : NBTTag) (ungzip : Bytes → Option Bytes)
    (k : Nat) (hwf : wfTag t = true)
    (hk : k < (NBTWriter.write t).length) :
    ∃ e, NBTParser.parse ungzip ((NBTWriter.write t).take k) = .error e := by
  obtain ⟨ty, nm, v⟩ := t
  obtain ⟨h1, h12, s, rfl⟩ := wfTag_shape ty nm v hwf
  have hhead := write_head ty s v (by omega)
  have hcond : ¬((((NBTWriter.write (.mk ty (some s) v)).take k)[0]? =
      some 31) ∧ (((NBTWriter.write (.mk ty (some s) v)).take k)[1]? =
      some 139)) := by
    rw [hhead]
    cases k with
    | zero => simp
    | succ k =>
      rw [List.take_succ_cons]
      intro hcontra
      simp only [List.getElem?_cons_zero, Option.some.injEq] at hcontra
      omega
  cases hr : NBTParser.readTag
      (NBTParser.fuelFor ((NBTWriter.write (.mk ty (some s) v)).take k))
      ((NBTWriter.write (.mk ty (some s) v)).take k) true none none with
  | error e =>
    refine ⟨e, ?_⟩
    rw [NBTParser.parse, if_neg hcond, hr]
  | ok p =>
    exfalso
    obtain ⟨t2, r2⟩ := p
    obtain ⟨u, hbu, hu⟩ := (readerExt _).1 _ true none t2 r2 hr
    have hmono : NBTParser.fuelFor
        ((NBTWriter.write (.mk ty (some s) v)).take k) ≤
        NBTParser.fuelFor (NBTWriter.write (.mk ty (some s) v)) := by
      simp only [NBTParser.fuelFor, List.length_take]
      have := Nat.min_le_right k (NBTWriter.write (.mk ty (some s) v)).length
      omega
    have hext := hu _ hmono
      (r2 ++ (NBTWriter.write (.mk ty (some s) v)).drop k)
    have hfull : u ++ (r2 ++ (NBTWriter.write (.mk ty (some s) v)).drop k) =
        NBTWriter.write (.mk ty (some s) v) := by
      rw [← List.append_assoc, ← hbu]
      exact List.take_append_drop k _
    rw [hfull] at hext
    have hrt := (readerOk
      (NBTParser.fuelFor (NBTWriter.write (.mk ty (some s) v)))).1
      (.mk ty (some s) v) [] true hwf (sizeT_le_fuelFor _ hwf)
    rw [List.append_nil, ← NBTWriter.write] at hrt
    rw [hrt] at hext
    simp only [Except.ok.injEq, Prod.mk.injEq] at hext
    have hnil := hext.2.symm
    rw [List.append_eq_nil] at hnil
    have hlen : ((NBTWriter.write (.mk ty (some s) v)).drop k).length = 0 := by
      rw [hnil.2]
      rfl
    rw [List.length_drop] at hlen
    omega

/-- With the gzip magic absent, `parse` is `readTag` on the raw bytes. -/
theorem parse_raw (ungzip : Bytes → Option Bytes) (buf : Bytes)
    (hcond : ¬(buf[0]? = some 31 ∧ buf[1]? = some 139)) :
    NBTParser.parse ungzip buf =
      match NBTParser.readTag (NBTParser.fuelFor buf) buf true none none with
      | .ok (root, _) => .ok (root, false)
      | .error e => .error e := by
  rw [NBTParser.parse, if_neg hcond]

/-- A ByteArray tag whose 4-byte length is negative is a fatal decode
error (the `Int8Array` construction throws). -/
theorem readTag_bytearray_neg (f : Nat) (s : Bytes) (cnt : Int) (rest : Bytes)
    (hs : wfName (some s) = true) (h1 : -2147483648 ≤ cnt) (h2 : cnt < 0) :
    NBTParser.readTag (f + 2) (NBTWriter.writeByte 7 ++
        (NBTWriter.writeString s ++ (NBTWriter.writeInt cnt ++ rest)))
      true none none = .error "RangeError" := by
  rw [show f + 2 = (f + 1) + 1 from rfl, readTag_eq_unforced,
    show NBTWriter.writeByte 7 = [7] from rfl]
  simp only [List.singleton_append, getU8_cons, ok_bind]
  rw [if_neg (by omega : ¬ (7 : Nat) = 0), readString_writeString s _ hs]
  simp only [ok_bind]
  rw [readValue_bytearray,
    getI32_writeInt_exact cnt rest h1 (by omega)]
  simp only [ok_bind, NBTParser.readI8Slice, if_pos h2, error_bind]

/-- A List tag whose 4-byte count is negative decodes, without error, to
the empty list (the `for` loop runs zero iterations). -/
theorem readTag_list_neg (f : Nat) (s : Bytes) (it : Nat) (cnt : Int)
    (rest : Bytes) (hs : wfName (some s) = true) (hit : it < 256)
    (h1 : -2147483648 ≤ cnt) (h2 : cnt < 0) :
    NBTParser.readTag (f + 3) (NBTWriter.writeByte 9 ++
        (NBTWriter.writeString s ++ (NBTWriter.writeByte (it : Int) ++
          (NBTWriter.writeInt cnt ++ rest)))) true none none =
      .ok (.mk 9 (some s) (.vListV it []), rest) := by
  rw [show f + 3 = (f + 2) + 1 from rfl, readTag_eq_unforced,
    show NBTWriter.writeByte 9 = [9] from rfl]
  simp only [List.singleton_append, getU8_cons, ok_bind]
  rw [if_neg (by omega : ¬ (9 : Nat) = 0), readString_writeString s _ hs]
  simp only [ok_bind]
  rw [show f + 2 = (f + 1) + 1 from rfl, readValue_list,
    writeByte_ofNat it hit]
  simp only [List.singleton_append, getU8_cons, ok_bind]
  rw [getI32_writeInt_exact cnt rest h1 (by omega)]
  simp only [ok_bind]
  rw [show cnt.toNat = 0 from by omega, readItems_zero]
  simp only [ok_bind]

/-- An IntArray tag whose 4-byte count is negative decodes, without
error, to the empty array. -/
theorem readTag_intarray_neg (f : Nat) (s : Bytes) (cnt : Int)
    (rest : Bytes) (hs : wfName (some s) = true)
    (h1 : -2147483648 ≤ cnt) (h2 : cnt < 0) :
    NBTParser.readTag (f + 2) (NBTWriter.writeByte 11 ++
        (NBTWriter.writeString s ++ (NBTWriter.writeInt cnt ++ rest)))
      true none none = .ok (.mk 11 (some s) (.vNums []), rest) := by
  rw [show f + 2 = (f + 1) + 1 from rfl, readTag_eq_unforced,
    show NBTWriter.writeByte 11 = [11] from rfl]
  simp only [List.singleton_append, getU8_cons, ok_bind]
  rw [if_neg (by omega : ¬ (11 : Nat) = 0), readString_writeString s _ hs]
  simp only [ok_bind]
  rw [readValue_intarray, getI32_writeInt_exact cnt rest h1 (by omega)]
  simp only [ok_bind]
  rw [show cnt.toNat = 0 from by omega]
  simp only [NBTParser.readI32Seq, ok_bind]

/-- A LongArray tag whose 4-byte count is negative decodes, without
error, to the empty array. -/
theorem readTag_longarray_neg (f : Nat) (s : Bytes) (cnt : Int)
    (rest : Bytes) (hs : wfName (some s) = true)
    (h1 : -2147483648 ≤ cnt) (h2 : cnt < 0) :
    NBTParser.readTag (f + 2) (NBTWriter.writeByte 12 ++
        (NBTWriter.writeString s ++ (NBTWriter.writeInt cnt ++ rest)))
      true none none = .ok (.mk 12 (some s) (.vBigs []), rest) := by
  rw [show f + 2 = (f + 1) + 1 from rfl, readTag_eq_unforced,
    show NBTWriter.writeByte 12 = [12] from rfl]
  simp only [List.singleton_append, getU8_cons, ok_bind]
  rw [if_neg (by omega : ¬ (12 : Nat) = 0), readString_writeString s _ hs]
  simp only [ok_bind]
  rw [readValue_longarray, getI32_writeInt_exact cnt rest h1 (by omega)]
  simp only [ok_bind]
  rw [show cnt.toNat = 0 from by omega]
  simp only [NBTParser.readLongSeq, ok_bind]

/-- Reading `n` forced-`End` list elements consumes nothing and returns
`n` End tags. -/
theorem readItems_end_replicate (n : Nat) : ∀ (f : Nat) (buf : Bytes),
    n ≤ f → NBTParser.readItems (f + 1) n 0 buf =
      .ok (List.replicate n (.mk 0 none .vNull), buf) := by
  induction n with
  | zero =>
    intro f buf h
    rw [readItems_zero]
    simp
  | succ n ih =>
    intro f buf h
    rw [readItems_succ]
    obtain ⟨g, rfl⟩ : ∃ g, f = g + 1 := ⟨f - 1, by omega⟩
    rw [readTag_eq_forced_item, if_pos rfl]
    simp only [ok_bind]
    rw [ih g buf (by omega)]
    simp only [ok_bind, List.replicate_succ]

/-- A List tag with element kind `End` and a positive count decodes,
without error, to that many `End` tags. -/
theorem readTag_end_items (f : Nat) (s : Bytes) (cnt : Int) (rest : Bytes)
    (hs : wfName (some s) = true) (h1 : 0 < cnt) (h2 : cnt < 2147483648) :
    NBTParser.readTag (cnt.toNat + f + 3) (NBTWriter.writeByte 9 ++
        (NBTWriter.writeString s ++ (NBTWriter.writeByte 0 ++
          (NBTWriter.writeInt cnt ++ rest)))) true none none =
      .ok (.mk 9 (some s)
        (.vListV 0 (List.replicate cnt.toNat (.mk 0 none .vNull))), rest) := by
  rw [show cnt.toNat + f + 3 = (cnt.toNat + f + 2) + 1 from rfl,
    readTag_eq_unforced, show NBTWriter.writeByte 9 = [9] from rfl]
  simp only [List.singleton_append, getU8_cons, ok_bind]
  rw [if_neg (by omega : ¬ (9 : Nat) = 0), readString_writeString s _ hs]
  simp only [ok_bind]
  rw [show cnt.toNat + f + 2 = (cnt.toNat + f + 1) + 1 from rfl,
    readValue_list, show NBTWriter.writeByte 0 = [0] from rfl]
  simp only [List.singleton_append, getU8_cons, ok_bind]
  rw [getI32_writeInt_exact cnt rest (by omega) (by omega)]
  simp only [ok_bind]
  rw [show cnt.toNat + f + 1 = (cnt.toNat + f) + 1 from rfl,
    readItems_end_replicate cnt.toNat (cnt.toNat + f) rest (by omega)]
  simp only [ok_bind]

/-- C3 counterexample — the claim "a List element kind of End with nonzero
count, or a negative List length, causes the decode call to fail" is false
on the code: a root List named `""` with element kind Byte and length
`-1` (bytes `09 0000 01 FFFFFFFF`) decodes without error to an empty
list, and one with element kind End and length 2 (bytes
`09 0000 00 00000002`) decodes without error to two End tags. -/
theorem C3_counterexample :
    NBTParser.parse (fun _ => none) [9, 0, 0, 1, 255, 255, 255, 255] =
      .ok (.mk 9 (some []) (.vListV 1 []), false) ∧
    NBTParser.parse (fun _ => none) [9, 0, 0, 0, 0, 0, 0, 2] =
      .ok (.mk 9 (some [])
        (.vListV 0 [.mk 0 none .vNull, .mk 0 none .vNull]), false) :=
  ⟨rfl, rfl⟩

/-- C3 (amended) — decoder treatment of malformed input: (1) a buffer
truncated mid-read (any strict prefix of a well-formed document's
encoding) fails with an error and no tree; (2) a negative ByteArray
length fails with an error; but (3) a negative List length, (4) a
negative IntArray length and (5) a negative LongArray length each decode
without error to an empty sequence, and (6) a List element kind of End
with positive count decodes without error to that many End tags. -/
theorem C3_malformed_inputs :
    (∀ (t : NBTTag) (ungzip : Bytes → Option Bytes) (k : Nat),
      wfTag t = true → k < (NBTWriter.write t).length →
      ∃ e, NBTParser.parse ungzip ((NBTWriter.write t).take k) =
        .error e) ∧
    (∀ (ungzip : Bytes → Option Bytes) (s : Bytes) (cnt : Int)
        (rest : Bytes), wfName (some s) = true →
      -2147483648 ≤ cnt → cnt < 0 →
      ∃ e, NBTParser.parse ungzip (NBTWriter.writeByte 7 ++
        (NBTWriter.writeString s ++ (NBTWriter.writeInt cnt ++ rest))) =
        .error e) ∧
    (∀ (ungzip : Bytes → Option Bytes) (s : Bytes) (it : Nat) (cnt : Int)
        (rest : Bytes), wfName (some s) = true → it < 256 →
      -2147483648 ≤ cnt → cnt < 0 →
      NBTParser.parse ungzip (NBTWriter.writeByte 9 ++
        (NBTWriter.writeString s ++ (NBTWriter.writeByte (it : Int) ++
          (NBTWriter.writeInt cnt ++ rest)))) =
        .ok (.mk 9 (some s) (.vListV it []), false)) ∧
    (∀ (ungzip : Bytes → Option Bytes) (s : Bytes) (cnt : Int)
        (rest : Bytes), wfName (some s) = true →
      -2147483648 ≤ cnt → cnt < 0 →
      NBTParser.parse ungzip (NBTWriter.writeByte 11 ++
        (NBTWriter.writeString s ++ (NBTWriter.writeInt cnt ++ rest))) =
        .ok (.mk 11 (some s) (.vNums []), false)) ∧
    (∀ (ungzip : Bytes → Option Bytes) (s : Bytes) (cnt : Int)
        (rest : Bytes), wfName (some s) = true →
      -2147483648 ≤ cnt → cnt < 0 →
      NBTParser.parse ungzip (NBTWriter.writeByte 12 ++
        (NBTWriter.writeString s ++ (NBTWriter.writeInt cnt ++ rest))) =
        .ok (.mk 12 (some s) (.vBigs []), false)) ∧
    (∀ (ungzip : Bytes → Option Bytes) (s : Bytes) (cnt : Int)
        (rest : Bytes), wfName (some s) = true →
      0 < cnt → cnt < 2147483648 →
      NBTParser.parse ungzip (NBTWriter.writeByte 9 ++
        (NBTWriter.writeString s ++ (NBTWriter.writeByte 0 ++
          (NBTWriter.writeInt cnt ++ rest)))) =
        .ok (.mk 9 (some s)
          (.vListV 0 (List.replicate cnt.toNat (.mk 0 none .vNull))),
          false)) := by
  refine ⟨decode_truncation, ?_, ?_, ?_, ?_, ?_⟩
  · intro ungzip s cnt rest hs h1 h2
    refine ⟨"RangeError", ?_⟩
    rw [parse_raw _ _ (by
      rw [show NBTWriter.writeByte 7 = [7] from rfl]
      simp)]
    rw [show NBTParser.fuelFor (NBTWriter.writeByte 7 ++
        (NBTWriter.writeString s ++ (NBTWriter.writeInt cnt ++ rest))) =
      (NBTParser.fuelFor (NBTWriter.writeByte 7 ++
        (NBTWriter.writeString s ++ (NBTWriter.writeInt cnt ++ rest))) - 2)
        + 2 from by simp only [NBTParser.fuelFor]; omega]
    rw [readTag_bytearray_neg _ s cnt rest hs h1 h2]
  · intro ungzip s it cnt rest hs hit h1 h2
    rw [parse_raw _ _ (by
      rw [show NBTWriter.writeByte 9 = [9] from rfl]
      simp)]
    rw [show NBTParser.fuelFor (NBTWriter.writeByte 9 ++
        (NBTWriter.writeString s ++ (NBTWriter.writeByte (it : Int) ++
          (NBTWriter.writeInt cnt ++ rest)))) =
      (NBTParser.fuelFor (NBTWriter.writeByte 9 ++
        (NBTWriter.writeString s ++ (NBTWriter.writeByte (it : Int) ++
          (NBTWriter.writeInt cnt ++ rest)))) - 3) + 3 from by
        simp only [NBTParser.fuelFor]; omega]
    rw [readTag_list_neg _ s it cnt rest hs hit h1 h2]
  · intro ungzip s cnt rest hs h1 h2
    rw [parse_raw _ _ (by
      rw [show NBTWriter.writeByte 11 = [11] from rfl]
      simp)]
    rw [show NBTParser.fuelFor (NBTWriter.writeByte 11 ++
        (NBTWriter.writeString s ++ (NBTWriter.writeInt cnt ++ rest))) =
      (NBTParser.fuelFor (NBTWriter.writeByte 11 ++
        (NBTWriter.writeString s ++ (NBTWriter.writeInt cnt ++ rest))) - 2)
        + 2 from by simp only [NBTParser.fuelFor]; omega]
    rw [readTag_intarray_neg _ s cnt rest hs h1 h2]
  · intro ungzip s cnt rest hs h1 h2
    rw [parse_raw _ _ (by
      rw [show NBTWriter.writeByte 12 = [12] from rfl]
      simp)]
    rw [show NBTParser.fuelFor (NBTWriter.writeByte 12 ++
        (NBTWriter.writeString s ++ (NBTWriter.writeInt cnt ++ rest))) =
      (NBTParser.fuelFor (NBTWriter.writeByte 12 ++
        (NBTWriter.writeString s ++ (NBTWriter.writeInt cnt ++ rest))) - 2)
        + 2 from by simp only [NBTParser.fuelFor]; omega]
    rw [readTag_longarray_neg _ s cnt rest hs h1 h2]
  · intro ungzip s cnt rest hs h1 h2
    rw [parse_raw _ _ (by
      rw [show NBTWriter.writeByte 9 = [9] from rfl]
      simp)]
    rw [show NBTParser.fuelFor (NBTWriter.writeByte 9 ++
        (NBTWriter.writeString s ++ (NBTWriter.writeByte 0 ++
          (NBTWriter.writeInt cnt ++ rest)))) =
      cnt.toNat + (NBTParser.fuelFor (NBTWriter.writeByte 9 ++
        (NBTWriter.writeString s ++ (NBTWriter.writeByte 0 ++
          (NBTWriter.writeInt cnt ++ rest)))) - cnt.toNat - 3) + 3 from by
        simp only [NBTParser.fuelFor]; omega]
    rw [readTag_end_items _ s cnt rest hs h1 h2]

/-- Witness for C3 (amended) at concrete inputs: a 3-byte truncation of
the spec's example document, and each malformed-length header with the
empty root name. -/
theorem C3_malformed_inputs_witness :
    (∃ e, NBTParser.parse (fun _ => none)
      ((NBTWriter.write (.mk 10 (some []) (.vCompound
        [.mk 3 (some [88, 112, 76, 101, 118, 101, 108])
          (.vNum 5)]))).take 3) = .error e) ∧
    (∃ e, NBTParser.parse (fun _ => none) (NBTWriter.writeByte 7 ++
      (NBTWriter.writeString [] ++ (NBTWriter.writeInt (-1) ++ []))) =
      .error e) ∧
    (NBTParser.parse (fun _ => none) (NBTWriter.writeByte 9 ++
      (NBTWriter.writeString [] ++ (NBTWriter.writeByte ((1 : Nat) : Int) ++
        (NBTWriter.writeInt (-1) ++ [])))) =
      .ok (.mk 9 (some []) (.vListV 1 []), false)) ∧
    (NBTParser.parse (fun _ => none) (NBTWriter.writeByte 11 ++
      (NBTWriter.writeString [] ++ (NBTWriter.writeInt (-1) ++ []))) =
      .ok (.mk 11 (some []) (.vNums []), false)) ∧
    (NBTParser.parse (fun _ => none) (NBTWriter.writeByte 12 ++
      (NBTWriter.writeString [] ++ (NBTWriter.writeInt (-1) ++ []))) =
      .ok (.mk 12 (some []) (.vBigs []), false)) ∧
    (NBTParser.parse (fun _ => none) (NBTWriter.writeByte 9 ++
      (NBTWriter.writeString [] ++ (NBTWriter.writeByte 0 ++
        (NBTWriter.writeInt 2 ++ []))))  =
      .ok (.mk 9 (some [])
        (.vListV 0 (List.replicate (2 : Int).toNat (.mk 0 none .vNull))),
        false)) :=
  ⟨C3_malformed_inputs.1 _ (fun _ => none) 3 (by decide) (by decide),
   C3_malformed_inputs.2.1 (fun _ => none) [] (-1) [] (by decide)
     (by decide) (by decide),
   C3_malformed_inputs.2.2.1 (fun _ => none) [] 1 (-1) [] (by decide)
     (by decide) (by decide) (by decide),
   C3_malformed_inputs.2.2.2.1 (fun _ => none) [] (-1) [] (by decide)
     (by decide) (by decide),
   C3_malformed_inputs.2.2.2.2.1 (fun _ => none) [] (-1) [] (by decide)
     (by decide) (by decide),
   C3_malformed_inputs.2.2.2.2.2 (fun _ => none) [] 2 [] (by decide)
     (by decide) (by decide)⟩

/-- C4 — gzip framing: if the first two bytes are `1F 8B`, `parse`
decompresses the whole buffer through the `ungzip` oracle before parsing
and reports `wasCompressed = true`; a decompression failure on such a
buffer is the fatal `"Invalid GZIP format"` error and the raw bytes are
never parsed; if the first two bytes are not `1F 8B`, no decompression is
attempted (the result does not consult the oracle) and
`wasCompressed = false`.  On any successful parse, `wasCompressed` holds
exactly when the magic bytes were present. -/
theorem C4_gzip_framing (ungzip : Bytes → Option Bytes) (buf : Bytes) :
    ((buf[0]? = some 31 ∧ buf[1]? = some 139) →
      (ungzip buf = none →
        NBTParser.parse ungzip buf = .error "Invalid GZIP format") ∧
      (∀ inflated, ungzip buf = some inflated →
        NBTParser.parse ungzip buf =
          match NBTParser.readTag (NBTParser.fuelFor inflated) inflated
              true none none with
          | .ok (root, _) => .ok (root, true)
          | .error e => .error e)) ∧
    (¬(buf[0]? = some 31 ∧ buf[1]? = some 139) →
      NBTParser.parse ungzip buf =
        match NBTParser.readTag (NBTParser.fuelFor buf) buf true none none
            with
        | .ok (root, _) => .ok (root, false)
        | .error e => .error e) ∧
    (∀ root wc, NBTParser.parse ungzip buf = .ok (root, wc) →
      (wc = true ↔ (buf[0]? = some 31 ∧ buf[1]? = some 139))) := by
  refine ⟨fun hmag => ⟨fun hz => ?_, fun inf hinf => ?_⟩,
    fun hmag => parse_raw ungzip buf hmag, fun root wc h => ?_⟩
  · rw [NBTParser.parse, if_pos hmag, hz]
  · rw [NBTParser.parse, if_pos hmag, hinf]
  · by_cases hmag : (buf[0]? = some 31 ∧ buf[1]? = some 139)
    · rw [NBTParser.parse, if_pos hmag] at h
      cases hz : ungzip buf with
      | none => simp only [hz] at h; exact absurd h (by simp)
      | some inf =>
        simp only [hz] at h
        cases hr : NBTParser.readTag (NBTParser.fuelFor inf) inf true
            none none with
        | error e => simp only [hr] at h; exact absurd h (by simp)
        | ok p =>
          obtain ⟨r1, r2⟩ := p
          simp only [hr, Except.ok.injEq, Prod.mk.injEq] at h
          rw [← h.2]
          simp [hmag]
    · rw [parse_raw _ _ hmag] at h
      cases hr : NBTParser.readTag (NBTParser.fuelFor buf) buf true
          none none with
      | error e => simp only [hr] at h; exact absurd h (by simp)
      | ok p =>
        obtain ⟨r1, r2⟩ := p
        simp only [hr, Except.ok.injEq, Prod.mk.injEq] at h
        rw [← h.2]
        simp [hmag]

/-- Witness for C4: a gzip-flagged buffer whose decompression fails is the
fatal format error; one whose decompression yields the 4-byte document
`01 0000 05` parses to that document with `wasCompressed = true`; the
same raw document without the magic parses with `wasCompressed = false`. -/
theorem C4_gzip_framing_witness :
    NBTParser.parse (fun _ => none) [31, 139] =
      .error "Invalid GZIP format" ∧
    NBTParser.parse (fun _ => some [1, 0, 0, 5]) [31, 139] =
      .ok (.mk 1 (some []) (.vNum 5), true) ∧
    NBTParser.parse (fun _ => none) [1, 0, 0, 5] =
      .ok (.mk 1 (some []) (.vNum 5), false) := by
  refine ⟨?_, ?_, ?_⟩
  · exact ((C4_gzip_framing (fun _ => none) [31, 139]).1 (by decide)).1 rfl
  · rw [((C4_gzip_framing (fun _ => some [1, 0, 0, 5]) [31, 139]).1
      (by decide)).2 [1, 0, 0, 5] rfl]
    rfl
  · rw [(C4_gzip_framing (fun _ => none) [1, 0, 0, 5]).2.1 (by decide)]
    rfl

section TreeUtils

mutual
/-- On pure values the deep clone is the identity. -/
theorem cloneTag_eq : ∀ t : NBTTag, cloneTag t = t
  | .mk ty nm .vNull => rfl
  | .mk ty nm .vUndef => rfl
  | .mk ty nm (.vNum i) => rfl
  | .mk ty nm (.vBig i) => rfl
  | .mk ty nm (.vF32 b) => rfl
  | .mk ty nm (.vF64 b) => rfl
  | .mk ty nm (.vStr s) => rfl
  | .mk ty nm (.vNums xs) => rfl
  | .mk ty nm (.vBigs xs) => rfl
  | .mk ty nm (.vCompound cs) => by
    simp only [cloneTag]
    split_ifs <;> simp [cloneTags_eq cs]
  | .mk ty nm (.vListV it l) => by
    simp only [cloneTag]
    split_ifs <;> simp [cloneTags_eq l]

theorem cloneTags_eq : ∀ l : List NBTTag, cloneTags l = l
  | [] => rfl
  | t :: ts => by rw [cloneTags, cloneTag_eq t, cloneTags_eq ts]
end

/-! Row-level equations for the tree walks.  The mutual definitions over
the nested inductive only reduce definitionally when the payload
constructor is explicit, so each row is recorded once and used as a
rewrite rule. -/

theorem recursiveDelete_compound (S : List Bytes) (ty : Nat)
    (nm : Option Bytes) (cs : List NBTTag) (p : Bytes) :
    recursiveDelete S (.mk ty nm (.vCompound cs)) p =
      if p ∈ S then none
      else if ty = 10 then
        some (.mk ty nm (.vCompound (deleteChildren S cs p)))
      else if ty = 9 then some (.mk ty nm (.vCompound cs))
      else some (.mk ty nm (.vCompound cs)) := rfl

theorem recursiveDelete_listv (S : List Bytes) (ty it : Nat)
    (nm : Option Bytes) (l : List NBTTag) (p : Bytes) :
    recursiveDelete S (.mk ty nm (.vListV it l)) p =
      if p ∈ S then none
      else if ty = 10 then some (.mk ty nm (.vListV it l))
      else if ty = 9 then
        some (.mk ty nm (.vListV it (deleteItems S l p 0)))
      else some (.mk ty nm (.vListV it l)) := rfl

theorem recursiveDelete_other (S : List Bytes) (ty : Nat)
    (nm : Option Bytes) (v : NBTValue) (p : Bytes)
    (h1 : ∀ cs, v ≠ NBTValue.vCompound cs)
    (h2 : ∀ it l, v ≠ NBTValue.vListV it l) :
    recursiveDelete S (.mk ty nm v) p =
      if p ∈ S then none else some (.mk ty nm v) := by
  rw [recursiveDelete]
  · split_ifs <;> rfl
  · exact fun cs h => h1 cs h
  · exact fun it l h => h2 it l h

theorem deleteChildren_cons (S : List Bytes) (c : NBTTag)
    (cs : List NBTTag) (p : Bytes) :
    deleteChildren S (c :: cs) p =
      match recursiveDelete S c (childPath p c.name) with
      | none => deleteChildren S cs p
      | some d => d :: deleteChildren S cs p := rfl

theorem deleteItems_cons (S : List Bytes) (c : NBTTag) (cs : List NBTTag)
    (p : Bytes) (idx : Nat) :
    deleteItems S (c :: cs) p idx =
      match recursiveDelete S c (itemPath p idx) with
      | none => deleteItems S cs p (idx + 1)
      | some d => d :: deleteItems S cs p (idx + 1) := rfl

theorem specKeep_compound (S : List Bytes) (ty : Nat) (nm : Option Bytes)
    (cs : List NBTTag) (p : Bytes) :
    specKeep S (.mk ty nm (.vCompound cs)) p =
      if ty = 10 then .mk ty nm (.vCompound (specKeepChildren S cs p))
      else if ty = 9 then .mk ty nm (.vCompound cs)
      else .mk ty nm (.vCompound cs) := rfl

theorem specKeep_listv (S : List Bytes) (ty it : Nat) (nm : Option Bytes)
    (l : List NBTTag) (p : Bytes) :
    specKeep S (.mk ty nm (.vListV it l)) p =
      if ty = 10 then .mk ty nm (.vListV it l)
      else if ty = 9 then .mk ty nm (.vListV it (specKeepItems S l p 0))
      else .mk ty nm (.vListV it l) := rfl

theorem specKeep_other (S : List Bytes) (ty : Nat) (nm : Option Bytes)
    (v : NBTValue) (p : Bytes) (h1 : ∀ cs, v ≠ NBTValue.vCompound cs)
    (h2 : ∀ it l, v ≠ NBTValue.vListV it l) :
    specKeep S (.mk ty nm v) p = .mk ty nm v := by
  rw [specKeep]
  · split_ifs <;> rfl
  · exact fun cs h => h1 cs h
  · exact fun it l h => h2 it l h

theorem specKeepChildren_cons (S : List Bytes) (c : NBTTag)
    (cs : List NBTTag) (p : Bytes) :
    specKeepChildren S (c :: cs) p =
      if childPath p c.name ∈ S then specKeepChildren S cs p
      else specKeep S c (childPath p c.name) :: specKeepChildren S cs p :=
  rfl

theorem specKeepItems_cons (S : List Bytes) (c : NBTTag)
    (cs : List NBTTag) (p : Bytes) (idx : Nat) :
    specKeepItems S (c :: cs) p idx =
      if itemPath p idx ∈ S then specKeepItems S cs p (idx + 1)
      else specKeep S c (itemPath p idx) :: specKeepItems S cs p (idx + 1) :=
  rfl

theorem flattenTree_compound (ty : Nat) (nm : Option Bytes)
    (cs : List NBTTag) (p : Bytes) :
    flattenTree (.mk ty nm (.vCompound cs)) p =
      p :: (if ty = 10 then flattenChildren cs p
        else if ty = 9 then [] else []) := rfl

theorem flattenTree_listv (ty it : Nat) (nm : Option Bytes)
    (l : List NBTTag) (p : Bytes) :
    flattenTree (.mk ty nm (.vListV it l)) p =
      p :: (if ty = 10 then [] else if ty = 9 then flattenItems l p 0
        else []) := rfl

theorem flattenTree_other (ty : Nat) (nm : Option Bytes) (v : NBTValue)
    (p : Bytes) (h1 : ∀ cs, v ≠ NBTValue.vCompound cs)
    (h2 : ∀ it l, v ≠ NBTValue.vListV it l) :
    flattenTree (.mk ty nm v) p = [p] := by
  rw [flattenTree]
  · split_ifs <;> rfl
  · exact fun cs h => h1 cs h
  · exact fun it l h => h2 it l h

theorem flattenChildren_cons (c : NBTTag) (cs : List NBTTag) (p : Bytes) :
    flattenChildren (c :: cs) p =
      flattenTree c (childPath p c.name) ++ flattenChildren cs p := rfl

theorem flattenItems_cons (c : NBTTag) (cs : List NBTTag) (p : Bytes)
    (idx : Nat) :
    flattenItems (c :: cs) p idx =
      flattenTree c (itemPath p idx) ++ flattenItems cs p (idx + 1) := rfl

theorem flattenTree_head (t : NBTTag) (p : Bytes) :
    p ∈ flattenTree t p := by
  obtain ⟨ty, nm, v⟩ := t
  cases v with
  | vCompound cs =>
    rw [flattenTree_compound]; exact List.mem_cons_self _ _
  | vListV it l =>
    rw [flattenTree_listv]; exact List.mem_cons_self _ _
  | vNull =>
    rw [flattenTree_other ty nm _ p (by nofun) (by nofun)]
    exact List.mem_cons_self _ _
  | vUndef =>
    rw [flattenTree_other ty nm _ p (by nofun) (by nofun)]
    exact List.mem_cons_self _ _
  | vNum i =>
    rw [flattenTree_other ty nm _ p (by nofun) (by nofun)]
    exact List.mem_cons_self _ _
  | vBig i =>
    rw [flattenTree_other ty nm _ p (by nofun) (by nofun)]
    exact List.mem_cons_self _ _
  | vF32 b =>
    rw [flattenTree_other ty nm _ p (by nofun) (by nofun)]
    exact List.mem_cons_self _ _
  | vF64 b =>
    rw [flattenTree_other ty nm _ p (by nofun) (by nofun)]
    exact List.mem_cons_self _ _
  | vStr s =>
    rw [flattenTree_other ty nm _ p (by nofun) (by nofun)]
    exact List.mem_cons_self _ _
  | vNums xs =>
    rw [flattenTree_other ty nm _ p (by nofun) (by nofun)]
    exact List.mem_cons_self _ _
  | vBigs xs =>
    rw [flattenTree_other ty nm _ p (by nofun) (by nofun)]
    exact List.mem_cons_self _ _

/-- Joint strong induction (on the size measure) for the refinement of the
filter-map walk by the specification-side walk. -/
theorem deleteSpec_join : ∀ n : Nat,
    (∀ (S : List Bytes) (t : NBTTag) (p : Bytes), sizeT t ≤ n →
      recursiveDelete S t p = specWalk S t p) ∧
    (∀ (S : List Bytes) (cs : List NBTTag) (p : Bytes), sizeL cs ≤ n →
      deleteChildren S cs p = specKeepChildren S cs p) ∧
    (∀ (S : List Bytes) (l : List NBTTag) (p : Bytes) (idx : Nat),
      sizeL l ≤ n → deleteItems S l p idx = specKeepItems S l p idx) := by
  intro n
  induction n with
  | zero =>
    refine ⟨fun S t p h => absurd h ?_, fun S cs p h => absurd h ?_,
      fun S l p idx h => absurd h ?_⟩
    · have := sizeT_pos t; omega
    · have := sizeL_pos cs; omega
    · have := sizeL_pos l; omega
  | succ n ih =>
    obtain ⟨ihT, ihC, ihI⟩ := ih
    refine ⟨?_, ?_, ?_⟩
    · rintro S ⟨ty, nm, v⟩ p h
      cases v with
      | vCompound cs =>
        have hs : sizeL cs ≤ n := by
          simp only [sizeT, sizeV] at h; omega
        rw [recursiveDelete_compound, specWalk, specKeep_compound]
        by_cases hp : p ∈ S
        · simp [hp]
        · simp only [if_neg hp]
          split_ifs <;> simp [ihC S cs p hs]
      | vListV it l =>
        have hs : sizeL l ≤ n := by
          simp only [sizeT, sizeV] at h; omega
        rw [recursiveDelete_listv, specWalk, specKeep_listv]
        by_cases hp : p ∈ S
        · simp [hp]
        · simp only [if_neg hp]
          split_ifs <;> simp [ihI S l p 0 hs]
      | vNull =>
        rw [recursiveDelete_other S ty nm _ p (by nofun) (by nofun),
          specWalk, specKeep_other S ty nm _ p (by nofun) (by nofun)]
      | vUndef =>
        rw [recursiveDelete_other S ty nm _ p (by nofun) (by nofun),
          specWalk, specKeep_other S ty nm _ p (by nofun) (by nofun)]
      | vNum i =>
        rw [recursiveDelete_other S ty nm _ p (by nofun) (by nofun),
          specWalk, specKeep_other S ty nm _ p (by nofun) (by nofun)]
      | vBig i =>
        rw [recursiveDelete_other S ty nm _ p (by nofun) (by nofun),
          specWalk, specKeep_other S ty nm _ p (by nofun) (by nofun)]
      | vF32 b =>
        rw [recursiveDelete_other S ty nm _ p (by nofun) (by nofun),
          specWalk, specKeep_other S ty nm _ p (by nofun) (by nofun)]
      | vF64 b =>
        rw [recursiveDelete_other S ty nm _ p (by nofun) (by nofun),
          specWalk, specKeep_other S ty nm _ p (by nofun) (by nofun)]
      | vStr s =>
        rw [recursiveDelete_other S ty nm _ p (by nofun) (by nofun),
          specWalk, specKeep_other S ty nm _ p (by nofun) (by nofun)]
      | vNums xs =>
        rw [recursiveDelete_other S ty nm _ p (by nofun) (by nofun),
          specWalk, specKeep_other S ty nm _ p (by nofun) (by nofun)]
      | vBigs xs =>
        rw [recursiveDelete_other S ty nm _ p (by nofun) (by nofun),
          specWalk, specKeep_other S ty nm _ p (by nofun) (by nofun)]
    · rintro S (_ | ⟨c, cs⟩) p h
      · rfl
      · have hc : sizeT c ≤ n := by
          simp only [sizeL] at h; have := sizeL_pos cs; omega
        have hcs : sizeL cs ≤ n := by
          simp only [sizeL] at h; have := sizeT_pos c; omega
        rw [deleteChildren_cons, ihT S c (childPath p c.name) hc, specWalk,
          specKeepChildren_cons]
        by_cases hq : childPath p c.name ∈ S
        · simp [hq, ihC S cs p hcs]
        · simp [hq, ihC S cs p hcs]
    · rintro S (_ | ⟨c, cs⟩) p idx h
      · rfl
      · have hc : sizeT c ≤ n := by
          simp only [sizeL] at h; have := sizeL_pos cs; omega
        have hcs : sizeL cs ≤ n := by
          simp only [sizeL] at h; have := sizeT_pos c; omega
        rw [deleteItems_cons, ihT S c (itemPath p idx) hc, specWalk,
          specKeepItems_cons]
        by_cases hq : itemPath p idx ∈ S
        · simp [hq, ihI S cs p (idx + 1) hcs]
        · simp [hq, ihI S cs p (idx + 1) hcs]

/-- The code's filter-map walk agrees with the specification-side walk
(drop exactly the nodes whose current path is in the set, without
descending; keep survivors in order). -/
theorem delete_eq_spec (S : List Bytes) (t : NBTTag) (p : Bytes) :
    recursiveDelete S t p = specWalk S t p :=
  (deleteSpec_join (sizeT t)).1 S t p le_rfl

theorem deleteChildren_eq (S : List Bytes) (cs : List NBTTag) (p : Bytes) :
    deleteChildren S cs p = specKeepChildren S cs p :=
  (deleteSpec_join (sizeL cs)).2.1 S cs p le_rfl

theorem deleteItems_eq (S : List Bytes) (l : List NBTTag) (p : Bytes)
    (idx : Nat) : deleteItems S l p idx = specKeepItems S l p idx :=
  (deleteSpec_join (sizeL l)).2.2 S l p idx le_rfl

/-- Joint strong induction: a subtree none of whose paths is in the set is
kept unchanged by the specification-side walk. -/
theorem specKeepId_join : ∀ n : Nat,
    (∀ (S : List Bytes) (t : NBTTag) (p : Bytes), sizeT t ≤ n →
      (∀ q ∈ flattenTree t p, q ∉ S) → specKeep S t p = t) ∧
    (∀ (S : List Bytes) (cs : List NBTTag) (p : Bytes), sizeL cs ≤ n →
      (∀ q ∈ flattenChildren cs p, q ∉ S) → specKeepChildren S cs p = cs) ∧
    (∀ (S : List Bytes) (l : List NBTTag) (p : Bytes) (idx : Nat),
      sizeL l ≤ n → (∀ q ∈ flattenItems l p idx, q ∉ S) →
      specKeepItems S l p idx = l) := by
  intro n
  induction n with
  | zero =>
    refine ⟨fun S t p h _ => absurd h ?_, fun S cs p h _ => absurd h ?_,
      fun S l p idx h _ => absurd h ?_⟩
    · have := sizeT_pos t; omega
    · have := sizeL_pos cs; omega
    · have := sizeL_pos l; omega
  | succ n ih =>
    obtain ⟨ihT, ihC, ihI⟩ := ih
    refine ⟨?_, ?_, ?_⟩
    · rintro S ⟨ty, nm, v⟩ p hsz h
      cases v with
      | vCompound cs =>
        by_cases h10 : ty = 10
        · have hs : sizeL cs ≤ n := by
            simp only [sizeT, sizeV] at hsz; omega
          have hch : ∀ q ∈ flattenChildren cs p, q ∉ S := fun q hq =>
            h q (by
              rw [flattenTree_compound, if_pos h10]
              exact List.mem_cons_of_mem _ hq)
          rw [specKeep_compound, if_pos h10, ihC S cs p hs hch]
        · rw [specKeep_compound, if_neg h10]
          split_ifs <;> rfl
      | vListV it l =>
        by_cases h9 : ty = 9
        · have h10 : ¬ ty = 10 := by omega
          have hs : sizeL l ≤ n := by
            simp only [sizeT, sizeV] at hsz; omega
          have hit : ∀ q ∈ flattenItems l p 0, q ∉ S := fun q hq =>
            h q (by
              rw [flattenTree_listv, if_neg h10, if_pos h9]
              exact List.mem_cons_of_mem _ hq)
          rw [specKeep_listv, if_neg h10, if_pos h9, ihI S l p 0 hs hit]
        · by_cases h10 : ty = 10
          · rw [specKeep_listv, if_pos h10]
          · rw [specKeep_listv, if_neg h10, if_neg h9]
      | vNull => rw [specKeep_other S ty nm _ p (by nofun) (by nofun)]
      | vUndef => rw [specKeep_other S ty nm _ p (by nofun) (by nofun)]
      | vNum i => rw [specKeep_other S ty nm _ p (by nofun) (by nofun)]
      | vBig i => rw [specKeep_other S ty nm _ p (by nofun) (by nofun)]
      | vF32 b => rw [specKeep_other S ty nm _ p (by nofun) (by nofun)]
      | vF64 b => rw [specKeep_other S ty nm _ p (by nofun) (by nofun)]
      | vStr s => rw [specKeep_other S ty nm _ p (by nofun) (by nofun)]
      | vNums xs => rw [specKeep_other S ty nm _ p (by nofun) (by nofun)]
      | vBigs xs => rw [specKeep_other S ty nm _ p (by nofun) (by nofun)]
    · rintro S (_ | ⟨c, cs⟩) p hsz h
      · rfl
      · have hc : sizeT c ≤ n := by
          simp only [sizeL] at hsz; have := sizeL_pos cs; omega
        have hcs : sizeL cs ≤ n := by
          simp only [sizeL] at hsz; have := sizeT_pos c; omega
        have hcpath : childPath p c.name ∉ S :=
          h _ (by
            rw [flattenChildren_cons]
            exact List.mem_append_left _ (flattenTree_head c _))
        have hrec : ∀ q ∈ flattenTree c (childPath p c.name), q ∉ S :=
          fun q hq => h q (by
            rw [flattenChildren_cons]; exact List.mem_append_left _ hq)
        have htail : ∀ q ∈ flattenChildren cs p, q ∉ S :=
          fun q hq => h q (by
            rw [flattenChildren_cons]; exact List.mem_append_right _ hq)
        rw [specKeepChildren_cons, if_neg hcpath,
          ihT S c (childPath p c.name) hc hrec, ihC S cs p hcs htail]
    · rintro S (_ | ⟨c, cs⟩) p idx hsz h
      · rfl
      · have hc : sizeT c ≤ n := by
          simp only [sizeL] at hsz; have := sizeL_pos cs; omega
        have hcs : sizeL cs ≤ n := by
          simp only [sizeL] at hsz; have := sizeT_pos c; omega
        have hcpath : itemPath p idx ∉ S :=
          h _ (by
            rw [flattenItems_cons]
            exact List.mem_append_left _ (flattenTree_head c _))
        have hrec : ∀ q ∈ flattenTree c (itemPath p idx), q ∉ S :=
          fun q hq => h q (by
            rw [flattenItems_cons]; exact List.mem_append_left _ hq)
        have htail : ∀ q ∈ flattenItems cs p (idx + 1), q ∉ S :=
          fun q hq => h q (by
            rw [flattenItems_cons]; exact List.mem_append_right _ hq)
        rw [specKeepItems_cons, if_neg hcpath,
          ihT S c (itemPath p idx) hc hrec, ihI S cs p (idx + 1) hcs htail]

/-- If no path of the subtree is in the set, the specification-side walk
keeps the subtree unchanged. -/
theorem specKeep_id (S : List Bytes) (t : NBTTag) (p : Bytes)
    (h : ∀ q ∈ flattenTree t p, q ∉ S) : specKeep S t p = t :=
  (specKeepId_join (sizeT t)).1 S t p le_rfl h

end TreeUtils

/-! ## Claims C5, C6, C10: the bulk-delete walk -/

/-- The specification-side walk touches neither the kind nor the name of
the node it keeps. -/
theorem specKeep_type_name (S : List Bytes) (t : NBTTag) (p : Bytes) :
    (specKeep S t p).type = t.type ∧ (specKeep S t p).name = t.name := by
  obtain ⟨ty, nm, v⟩ := t
  cases v with
  | vCompound cs =>
    rw [specKeep_compound]; split_ifs <;> exact ⟨rfl, rfl⟩
  | vListV it l =>
    rw [specKeep_listv]; split_ifs <;> exact ⟨rfl, rfl⟩
  | vNull =>
    rw [specKeep_other S ty nm _ p (by nofun) (by nofun)]; exact ⟨rfl, rfl⟩
  | vUndef =>
    rw [specKeep_other S ty nm _ p (by nofun) (by nofun)]; exact ⟨rfl, rfl⟩
  | vNum i =>
    rw [specKeep_other S ty nm _ p (by nofun) (by nofun)]; exact ⟨rfl, rfl⟩
  | vBig i =>
    rw [specKeep_other S ty nm _ p (by nofun) (by nofun)]; exact ⟨rfl, rfl⟩
  | vF32 b =>
    rw [specKeep_other S ty nm _ p (by nofun) (by nofun)]; exact ⟨rfl, rfl⟩
  | vF64 b =>
    rw [specKeep_other S ty nm _ p (by nofun) (by nofun)]; exact ⟨rfl, rfl⟩
  | vStr s =>
    rw [specKeep_other S ty nm _ p (by nofun) (by nofun)]; exact ⟨rfl, rfl⟩
  | vNums xs =>
    rw [specKeep_other S ty nm _ p (by nofun) (by nofun)]; exact ⟨rfl, rfl⟩
  | vBigs xs =>
    rw [specKeep_other S ty nm _ p (by nofun) (by nofun)]; exact ⟨rfl, rfl⟩

/-- CLAIM C5 (counterexample): with the path set `{root}` the child
`root.a` — whose own current path is not in the set — is removed all the
same (the deleted-root fallback empties the kept root), so the walk does
not remove exactly the nodes whose current path is in the set. -/
theorem C5_counterexample :
    deleteNodesByPaths
        (.mk 10 (some []) (.vCompound [.mk 1 (some [97]) (.vNum 1)]))
        [rootPath]
      = .mk 10 (some []) (.vCompound []) ∧
    childPath rootPath (some [97]) ∉ [rootPath] :=
  ⟨rfl, by decide⟩

/-- CLAIM C5 (amended): the inner walk removes exactly the nodes whose
current path is in the set, dropping each such subtree without descending
and keeping survivors in relative order (it equals the specification-side
walk at every node); whenever the root's own path `root` is not in the
set, `deleteNodesByPaths` is exactly that walk; and when no current path
of the tree is in the set the operation is the identity. -/
theorem C5_delete_walk :
    (∀ (S : List Bytes) (t : NBTTag) (p : Bytes),
      recursiveDelete S t p = specWalk S t p) ∧
    (∀ (S : List Bytes) (t : NBTTag), rootPath ∉ S →
      deleteNodesByPaths t S = specKeep S t rootPath) ∧
    (∀ (S : List Bytes) (t : NBTTag),
      (∀ q ∈ flattenTree t rootPath, q ∉ S) → deleteNodesByPaths t S = t) := by
  refine ⟨fun S t p => delete_eq_spec S t p, ?_, ?_⟩
  · intro S t hr
    rw [deleteNodesByPaths, cloneTag_eq t, delete_eq_spec S t rootPath,
      specWalk, if_neg hr]
  · intro S t h
    have hr : rootPath ∉ S := h _ (flattenTree_head t rootPath)
    rw [deleteNodesByPaths, cloneTag_eq t, delete_eq_spec S t rootPath,
      specWalk, if_neg hr]
    show specKeep S t rootPath = t
    exact specKeep_id S t rootPath h

theorem C5_delete_walk_witness :
    recursiveDelete [[99]] (.mk 1 (some [97]) (.vNum 5)) rootPath
        = specWalk [[99]] (.mk 1 (some [97]) (.vNum 5)) rootPath ∧
    deleteNodesByPaths (.mk 10 (some []) (.vCompound [])) [[99]]
        = specKeep [[99]] (.mk 10 (some []) (.vCompound [])) rootPath ∧
    deleteNodesByPaths (.mk 3 (some [97]) (.vNum 7)) [[99]]
        = .mk 3 (some [97]) (.vNum 7) :=
  ⟨C5_delete_walk.1 [[99]] (.mk 1 (some [97]) (.vNum 5)) rootPath,
   C5_delete_walk.2.1 [[99]] (.mk 10 (some []) (.vCompound [])) (by decide),
   C5_delete_walk.2.2 [[99]] (.mk 3 (some [97]) (.vNum 7)) (by decide)⟩

/-- CLAIM C6 (counterexample): a path set holding the root's path `root`
empties the root of its children (the `result || { ...root, value: [] }`
fallback), contradicting the claim that this cannot happen. -/
theorem C6_counterexample :
    deleteNodesByPaths
        (.mk 10 (some [82]) (.vCompound [.mk 2 (some [98]) (.vNum 3)]))
        [rootPath]
      = .mk 10 (some [82]) (.vCompound []) :=
  rfl

/-- CLAIM C6 (amended): the bulk delete indeed never deletes the root —
it always returns a tag whose kind and name are the root's — but a path
set containing the root's path `root` does empty the root of its
children: the result is then the root's kind and name over an empty child
sequence. -/
theorem C6_root_protection :
    (∀ (t : NBTTag) (S : List Bytes),
      (deleteNodesByPaths t S).type = t.type ∧
      (deleteNodesByPaths t S).name = t.name) ∧
    (∀ (t : NBTTag) (S : List Bytes), rootPath ∈ S →
      deleteNodesByPaths t S = .mk t.type t.name (.vCompound [])) := by
  constructor
  · intro t S
    by_cases hr : rootPath ∈ S
    · rw [deleteNodesByPaths, cloneTag_eq t, delete_eq_spec S t rootPath,
        specWalk, if_pos hr]
      exact ⟨rfl, rfl⟩
    · rw [deleteNodesByPaths, cloneTag_eq t, delete_eq_spec S t rootPath,
        specWalk, if_neg hr]
      show (specKeep S t rootPath).type = t.type ∧
        (specKeep S t rootPath).name = t.name
      exact specKeep_type_name S t rootPath
  · intro t S hr
    rw [deleteNodesByPaths, cloneTag_eq t, delete_eq_spec S t rootPath,
      specWalk, if_pos hr]

theorem C6_root_protection_witness :
    (deleteNodesByPaths (.mk 9 (some [76]) (.vListV 1 [])) [[99]]).type
        = (NBTTag.mk 9 (some [76]) (.vListV 1 [])).type ∧
    deleteNodesByPaths (.mk 10 none (.vCompound [])) [rootPath]
        = .mk (NBTTag.mk 10 none (.vCompound [])).type
            (NBTTag.mk 10 none (.vCompound [])).name (.vCompound []) :=
  ⟨(C6_root_protection.1 (.mk 9 (some [76]) (.vListV 1 [])) [[99]]).1,
   C6_root_protection.2 (.mk 10 none (.vCompound [])) [rootPath]
     (by decide)⟩

/-- CLAIM C10: two same-named Compound children share one flattened path
(`root.a` twice), and deleting that single path removes both of them —
more nodes are removed than paths supplied. -/
theorem C10_duplicate_paths :
    flattenTree
        (.mk 10 (some []) (.vCompound
          [.mk 1 (some [97]) (.vNum 1), .mk 1 (some [97]) (.vNum 2),
           .mk 1 (some [98]) (.vNum 3)])) rootPath
      = [rootPath, childPath rootPath (some [97]),
         childPath rootPath (some [97]), childPath rootPath (some [98])] ∧
    deleteNodesByPaths
        (.mk 10 (some []) (.vCompound
          [.mk 1 (some [97]) (.vNum 1), .mk 1 (some [97]) (.vNum 2),
           .mk 1 (some [98]) (.vNum 3)]))
        [childPath rootPath (some [97])]
      = .mk 10 (some []) (.vCompound [.mk 1 (some [98]) (.vNum 3)]) :=
  ⟨rfl, rfl⟩

/-! ## Claims C7, C8: undo/redo history -/

/-- `slice(-50)` of a list ending in `c` still ends in `c`: the drop stays
inside the prefix. -/
theorem sliceLast_concat (u : List NBTTag) (c : NBTTag) :
    sliceLast 50 (u ++ [c]) = u.drop (u.length + 1 - 50) ++ [c] := by
  rw [sliceLast]
  have h1 : (u ++ [c]).length = u.length + 1 := by simp
  rw [h1]
  exact List.drop_append_of_le_length (by omega)

/-- Every reachable document state keeps the total number of snapshots on
the two stacks at or under the cap of 50. -/
theorem reachable_sum_le (f : NBTFile) (h : Reachable f) :
    f.undoStack.length + f.redoStack.length ≤ 50 := by
  induction h with
  | opened id filename root isCompressed => simp
  | commit newRoot hf ih =>
    simp only [pushHistory, sliceLast, List.length_drop, List.length_append,
      List.length_nil]
    omega
  | undo hf ih =>
    rename_i g
    cases hu : g.undoStack.getLast? with
    | none => simp [handleUndo, hu]; omega
    | some r =>
      have hne : g.undoStack ≠ [] := by
        intro h0; rw [h0] at hu; simp at hu
      have hpos : 1 ≤ g.undoStack.length :=
        List.length_pos.mpr hne
      simp only [handleUndo, hu, List.length_dropLast, List.length_append,
        List.length_cons, List.length_nil]
      omega
  | redo hf ih =>
    rename_i g
    cases hu : g.redoStack.getLast? with
    | none => simp [handleRedo, hu]; omega
    | some r =>
      have hne : g.redoStack ≠ [] := by
        intro h0; rw [h0] at hu; simp at hu
      have hpos : 1 ≤ g.redoStack.length :=
        List.length_pos.mpr hne
      simp only [handleRedo, hu, List.length_dropLast, List.length_append,
        List.length_cons, List.length_nil]
      omega

/-- CLAIM C7: undo right after a commit restores the pre-commit root;
redo right after that undo restores the committed root; every commit
clears the redo stack; and redo on an empty redo stack is a no-op. -/
theorem C7_undo_redo :
    (∀ (f : NBTFile) (x : NBTTag),
      (handleUndo (pushHistory f x)).root = f.root) ∧
    (∀ (f : NBTFile) (x : NBTTag),
      (handleRedo (handleUndo (pushHistory f x))).root = x) ∧
    (∀ (f : NBTFile) (x : NBTTag), (pushHistory f x).redoStack = []) ∧
    (∀ g : NBTFile, g.redoStack = [] → handleRedo g = g) := by
  refine ⟨?_, ?_, fun f x => rfl, ?_⟩
  · intro f x
    simp [handleUndo, pushHistory, sliceLast_concat, List.getLast?_concat,
      cloneTag_eq]
  · intro f x
    simp [handleRedo, handleUndo, pushHistory, sliceLast_concat,
      List.getLast?_concat, cloneTag_eq]
  · intro g hg
    simp [handleRedo, hg]

theorem C7_undo_redo_witness :
    (handleUndo (pushHistory
        ⟨[], [], .mk 1 none (.vNum 7), false, false, [], []⟩
        (.mk 1 none (.vNum 8)))).root = .mk 1 none (.vNum 7) ∧
    (handleRedo (handleUndo (pushHistory
        ⟨[], [], .mk 1 none (.vNum 7), false, false, [], []⟩
        (.mk 1 none (.vNum 8))))).root = .mk 1 none (.vNum 8) ∧
    (pushHistory ⟨[], [], .mk 1 none (.vNum 7), false, false, [], []⟩
        (.mk 1 none (.vNum 8))).redoStack = [] ∧
    handleRedo (⟨[], [], .mk 1 none (.vNum 7), false, false, [], []⟩ :
        NBTFile)
      = ⟨[], [], .mk 1 none (.vNum 7), false, false, [], []⟩ :=
  ⟨C7_undo_redo.1 ⟨[], [], .mk 1 none (.vNum 7), false, false, [], []⟩
      (.mk 1 none (.vNum 8)),
   C7_undo_redo.2.1 ⟨[], [], .mk 1 none (.vNum 7), false, false, [], []⟩
      (.mk 1 none (.vNum 8)),
   C7_undo_redo.2.2.1 ⟨[], [], .mk 1 none (.vNum 7), false, false, [], []⟩
      (.mk 1 none (.vNum 8)),
   C7_undo_redo.2.2.2 ⟨[], [], .mk 1 none (.vNum 7), false, false, [], []⟩
      rfl⟩

/-- CLAIM C8: every reachable document state keeps both stacks at or
under the cap of 50; on a full undo stack a commit evicts the oldest
snapshot and appends the newest. -/
theorem C8_history_bound :
    (∀ f : NBTFile, Reachable f →
      f.undoStack.length ≤ 50 ∧ f.redoStack.length ≤ 50) ∧
    (∀ (f : NBTFile) (x : NBTTag), f.undoStack.length = 50 →
      (pushHistory f x).undoStack
        = f.undoStack.tail ++ [cloneTag f.root]) := by
  constructor
  · intro f h
    have := reachable_sum_le f h
    omega
  · intro f x h
    show sliceLast 50 (f.undoStack ++ [cloneTag f.root]) = _
    rw [sliceLast_concat, h]
    rw [show (50 + 1 - 50 : Nat) = 1 from rfl, List.drop_one]

theorem C8_history_bound_witness :
    ((⟨[], [], .mk 10 none (.vCompound []), false, false, [], []⟩ :
        NBTFile).undoStack.length ≤ 50 ∧
      (⟨[], [], .mk 10 none (.vCompound []), false, false, [], []⟩ :
        NBTFile).redoStack.length ≤ 50) ∧
    (pushHistory
        ⟨[], [], .mk 3 none (.vNum 1), false, false,
          List.replicate 50 (.mk 0 none .vNull), []⟩
        (.mk 3 none (.vNum 2))).undoStack
      = (List.replicate 50 (NBTTag.mk 0 none .vNull)).tail ++
        [cloneTag (.mk 3 none (.vNum 1))] :=
  ⟨C8_history_bound.1 _ (Reachable.opened [] [] (.mk 10 none (.vCompound []))
      false),
   C8_history_bound.2
      ⟨[], [], .mk 3 none (.vNum 1), false, false,
        List.replicate 50 (.mk 0 none .vNull), []⟩
      (.mk 3 none (.vNum 2)) (by simp)⟩

/-! ## Claim C9: add-child defaults -/

/-- CLAIM C9 (counterexample): asking a Compound for a new child of kind
Int (3) appends the fixed String child `new_tag: 'value'` of kind 8 ≠ 3 —
the requested kind is ignored; and a List of Lists (element kind 9) gets
a new element whose payload is the number 0, not an empty list. -/
theorem C9_counterexample :
    handleAddChild (.mk 10 (some []) (.vCompound [])) 3
      = some (.mk 10 (some []) (.vCompound
          [.mk 8 (some [110, 101, 119, 95, 116, 97, 103])
            (.vStr [118, 97, 108, 117, 101])])) ∧
    (8 : Nat) ≠ 3 ∧
    handleAddChild (.mk 9 none (.vListV 9 [])) 9
      = some (.mk 9 none (.vListV 9 [.mk 9 none (.vNum 0)])) :=
  ⟨rfl, by decide, rfl⟩

/-- CLAIM C9 (amended): a Compound target appends the fixed String child
`new_tag: 'value'`, ignoring the requested kind; a List target appends an
unnamed child of the declared element kind whose default is empty text
for String, an empty child sequence for Compound, and the number zero for
every other kind (List and the primitive arrays included); any other
target produces no update. -/
theorem C9_add_child :
    (∀ (nm : Option Bytes) (cs : List NBTTag) (pt : Nat),
      handleAddChild (.mk 10 nm (.vCompound cs)) pt
        = some (.mk 10 nm (.vCompound (cs ++
            [.mk 8 (some [110, 101, 119, 95, 116, 97, 103])
              (.vStr [118, 97, 108, 117, 101])])))) ∧
    (∀ (nm : Option Bytes) (it : Nat) (l : List NBTTag) (pt : Nat),
      handleAddChild (.mk 9 nm (.vListV it l)) pt
        = some (.mk 9 nm (.vListV it (l ++ [.mk it none (addDefault it)])))) ∧
    (addDefault 8 = .vStr [] ∧ addDefault 10 = .vCompound [] ∧
      ∀ it : Nat, it ≠ 8 → it ≠ 10 → addDefault it = .vNum 0) ∧
    (∀ (t : NBTTag) (pt : Nat), t.type ≠ 10 → t.type ≠ 9 →
      handleAddChild t pt = none) := by
  refine ⟨fun nm cs pt => rfl, fun nm it l pt => rfl,
    ⟨rfl, rfl, ?_⟩, ?_⟩
  · intro it h8 h10
    simp [addDefault, h8, h10]
  · rintro ⟨ty, nm, v⟩ pt h10 h9
    simp only [NBTTag.type] at h10 h9
    simp [handleAddChild, NBTTag.type, h10, h9]

theorem C9_add_child_witness :
    handleAddChild (.mk 10 none (.vCompound [])) 1
      = some (.mk 10 none (.vCompound
          [.mk 8 (some [110, 101, 119, 95, 116, 97, 103])
            (.vStr [118, 97, 108, 117, 101])])) ∧
    addDefault 11 = .vNum 0 ∧
    handleAddChild (.mk 1 none (.vNum 0)) 1 = none :=
  ⟨C9_add_child.1 none [] 1,
   C9_add_child.2.2.1.2.2 11 (by decide) (by decide),
   C9_add_child.2.2.2 (.mk 1 none (.vNum 0)) 1 (by decide) (by decide)⟩
